import Mathlib

/-!
# std.path — a shallow embedding of the path-grammar engine

Source files embedded here:

* `csrc/std.h`                (separator constants)
* `csrc/libs/libpath_unix.c`  (POSIX grammar)
* `csrc/libs/libpath_win.c`   (Windows grammar)
* `csrc/libs/libpath.c`       (comparator, splitter, tokenizer)
* `csrc/mods/path.c`          (the Lua-facing operations)

Conventions of the embedding:

* a C string `(const char *p, size_t len)` is a `List Nat` of byte values; a Lua string
  is NUL-terminated, so the read `p[i]` is `p.getD i 0`;
* a pointer into a string is the list of bytes from that position to the end of the string;
* the compile-time platform switch (`_STD_WINDOWS`) is the value `Grammar`;
* a Lua function returning no value is `none`, one returning a string is `some _`;
* the two `while (true)` loops of `starts_with` / `ends_with` take a `fuel` bounding the
  number of iterations and return `none` when it runs out.
-/

namespace StdPath

/-- A byte string. -/
abbrev Bytes := List Nat

/-- The bytes of a string literal (used to write examples). -/
def bytes (s : String) : Bytes := s.toList.map Char.toNat

/-- The platform the C code is compiled for (`_STD_WINDOWS` defined or not). -/
inductive Grammar where
  | posix
  | windows
  deriving DecidableEq, Repr

/-- `_STD_PATH_DIRSEP` of std.h. -/
def STD_PATH_DIRSEP : Grammar → Nat
  | .posix => 47
  | .windows => 92

/-- `_STD_PATH_ALTDIRSEP` of std.h. -/
def STD_PATH_ALTDIRSEP : Grammar → Nat
  | .posix => 47
  | .windows => 47

/-- `is_volume_sep` of libpath_win.c. -/
def is_volume_sep (c : Nat) : Bool := c == 58

/-- The conversion `(unsigned)c` of a (signed, 8-bit) `char` holding the byte `c`. -/
def char_to_unsigned (c : Nat) : Nat :=
  if c % 256 < 128 then c % 256 else 2 ^ 32 - 256 + c % 256

/-- `is_drive_char` of libpath_win.c: `((unsigned)c | 32) - 'a' < 26` in 32-bit unsigned
arithmetic. -/
def is_drive_char (c : Nat) : Bool :=
  decide (((char_to_unsigned c ||| 32) + (2 ^ 32 - 97)) % 2 ^ 32 < 26)

/-- `pathL_is_dirsep` of libpath_unix.c / libpath_win.c. -/
def pathL_is_dirsep (g : Grammar) (c : Nat) (verbatim : Bool) : Bool :=
  match g with
  | .posix => c == STD_PATH_DIRSEP .posix
  | .windows => c == STD_PATH_DIRSEP .windows || (!verbatim && c == STD_PATH_ALTDIRSEP .windows)

/-- `str_eq4(p, lit)`: the four bytes at `p` equal the four bytes of `lit`. -/
def str_eq4 (p lit : Bytes) : Bool :=
  p.getD 0 0 == lit.getD 0 0 && p.getD 1 0 == lit.getD 1 0 &&
    p.getD 2 0 == lit.getD 2 0 && p.getD 3 0 == lit.getD 3 0

/-- `str_eq2(p, lit)`: the two bytes at `p` equal the two bytes of `lit`. -/
def str_eq2 (p lit : Bytes) : Bool :=
  p.getD 0 0 == lit.getD 0 0 && p.getD 1 0 == lit.getD 1 0

/-- `VERBATIM_PREFIX`, the bytes of `\\?\`. -/
def VERBATIM_PREFIX : Bytes := [92, 92, 63, 92]

/-- `DEVICE_PREFIX`, the bytes of `\\.\`. -/
def DEVICE_PREFIX : Bytes := [92, 92, 46, 92]

/-- `UNC_PREFIX`, the bytes of `\\`. -/
def UNC_PREFIX : Bytes := [92, 92]

/-- The literal `"UNC\\"`. -/
def UNC_TAG : Bytes := [85, 78, 67, 92]

/-- `pathL_is_verbatim`. -/
def pathL_is_verbatim (g : Grammar) (path : Bytes) : Bool :=
  match g with
  | .posix => false
  | .windows => decide (path.length ≥ 4) && str_eq4 path VERBATIM_PREFIX

/-- `is_device` of libpath_win.c. -/
def is_device (path : Bytes) : Bool :=
  decide (path.length ≥ 4) && str_eq4 path DEVICE_PREFIX

/-- `is_unc` of libpath_win.c. -/
def is_unc (path : Bytes) : Bool :=
  decide (path.length ≥ 2) && str_eq2 path UNC_PREFIX

/-- The loop of the `"\\?\path\"` branch of `pathL_root_length`:
`for (; root_len < path_len; root_len++) if (is_dirsep(path[root_len])) { root_len++; break; }`.
The first argument is the part of the path from index `root_len` on. -/
def root_scan_first (g : Grammar) (verbatim : Bool) : Bytes → Nat → Nat
  | [], root_len => root_len
  | c :: rest, root_len =>
    if pathL_is_dirsep g c verbatim then root_len + 1
    else root_scan_first g verbatim rest (root_len + 1)

/-- The loop of the UNC branches of `pathL_root_length`:
`for (int i = 2; root_len < path_len; root_len++) if (is_dirsep(path[root_len]) && --i == 0) break;`.
The first argument is the part of the path from index `root_len` on. -/
def root_scan_second (g : Grammar) (verbatim : Bool) : Bytes → Nat → Nat → Nat
  | [], _, root_len => root_len
  | c :: rest, i, root_len =>
    if pathL_is_dirsep g c verbatim then
      if i - 1 = 0 then root_len
      else root_scan_second g verbatim rest (i - 1) (root_len + 1)
    else root_scan_second g verbatim rest i (root_len + 1)

/-- `pathL_root_length`: the length of the root and the value stored through `verbatim_ptr`. -/
def pathL_root_length (g : Grammar) (path : Bytes) : Nat × Bool :=
  match g with
  | .posix =>
    (if decide (path.length > 0) && pathL_is_dirsep .posix (path.getD 0 0) false then 1 else 0,
      false)
  | .windows =>
    if decide (path.length > 1) && is_volume_sep (path.getD 1 0) && is_drive_char (path.getD 0 0)
    then
      (if decide (path.length > 2) && pathL_is_dirsep .windows (path.getD 2 0) false then 3 else 2,
        false)
    else
      let verbatim := pathL_is_verbatim .windows path
      if verbatim || is_device path then
        if decide (path.length < 8) || !str_eq4 (path.drop 4) UNC_TAG then
          (root_scan_first .windows verbatim (path.drop 4) 4, verbatim)
        else
          (root_scan_second .windows verbatim (path.drop 8) 2 8, verbatim)
      else if is_unc path then
        (root_scan_second .windows false (path.drop 2) 2 2, verbatim)
      else
        (if pathL_is_dirsep .windows (path.getD 0 0) false then 1 else 0, verbatim)

/-- `pathL_is_rooted`. -/
def pathL_is_rooted (g : Grammar) (path : Bytes) : Bool :=
  decide ((pathL_root_length g path).1 > 0)

/-- The C library's `tolower` in the "C" locale. -/
def tolower (c : Nat) : Nat := if 65 ≤ c ∧ c ≤ 90 then c + 32 else c

/-- The C library's `strncasecmp(a, b, n)` (`_strnicmp` on Windows): compares at most `n`
bytes, ignoring ASCII case, and stops after a NUL. -/
def strncasecmp : Bytes → Bytes → Nat → Int
  | _, _, 0 => 0
  | a, b, n + 1 =>
    let ca := tolower (a.headD 0)
    let cb := tolower (b.headD 0)
    if ca ≠ cb then (ca : Int) - (cb : Int)
    else if ca = 0 then 0
    else strncasecmp a.tail b.tail n

/-- `pathL_compare`. -/
def pathL_compare (path : Bytes) (path_len : Nat) (other_path : Bytes) (other_path_len : Nat) :
    Int :=
  if path_len > other_path_len then 1
  else if path_len < other_path_len then -1
  else strncasecmp path other_path path_len

/-- `path_components_t` of libpath.h. -/
structure path_components_t where
  root_len : Nat
  dir_len : Nat
  file_offset : Nat
  ext_offset : Nat
  verbatim : Bool
  deriving DecidableEq, Repr

/-- First loop of `pathL_split_path`:
`for (size_t i = path_len; --i > root_len;) if (is_dirsep(path[i])) { file_offset = i + 1; break; }`
with `file_offset` initialised to `root_len`. The last argument is `i` before the decrement. -/
def split_file_offset (g : Grammar) (path : Bytes) (verbatim : Bool) (root_len : Nat) : Nat → Nat
  | 0 => root_len
  | i + 1 =>
    if i > root_len then
      if pathL_is_dirsep g (path.getD i 0) verbatim then i + 1
      else split_file_offset g path verbatim root_len i
    else root_len

/-- Second loop of `pathL_split_path`:
`while (dir_len > root_len && is_dirsep(path[dir_len - 1])) dir_len--;`. -/
def split_dir_len (g : Grammar) (path : Bytes) (verbatim : Bool) (root_len : Nat) : Nat → Nat
  | 0 => 0
  | d + 1 =>
    if decide (d + 1 > root_len) && pathL_is_dirsep g (path.getD d 0) verbatim then
      split_dir_len g path verbatim root_len d
    else d + 1

/-- Third loop of `pathL_split_path`:
`for (size_t i = path_len; --i > file_offset + 1;) if (path[i] == '.') { ext_offset = i + 1; break; }`
with `ext_offset` initialised to `0`. The last argument is `i` before the decrement. -/
def split_ext_offset (path : Bytes) (file_offset : Nat) : Nat → Nat
  | 0 => 0
  | i + 1 =>
    if i > file_offset + 1 then
      if path.getD i 0 = 46 then i + 1
      else split_ext_offset path file_offset i
    else 0

/-- `pathL_split_path`. -/
def pathL_split_path (g : Grammar) (path : Bytes) : path_components_t :=
  if path.length = 0 then ⟨0, 0, 0, 0, false⟩
  else
    let rl := pathL_root_length g path
    let root_len := rl.1
    let verbatim := rl.2
    let file_offset := split_file_offset g path verbatim root_len path.length
    let dir_len := split_dir_len g path verbatim root_len file_offset
    let ext_offset := split_ext_offset path file_offset path.length
    ⟨root_len, dir_len, file_offset, ext_offset, verbatim⟩

/-- `lua_pushlstring(L, s + off, len)` / `luaL_addlstring(&b, s + off, len)`: the `len` bytes
of `s` starting at `off`. A read past the end of the string object is outside the C
semantics; here such bytes read as `0`. -/
def lstring (s : Bytes) (off len : Nat) : Bytes :=
  ((s ++ List.replicate (off + len - s.length) 0).drop off).take len

/-- `path_extension` of path.c. -/
def path_extension (g : Grammar) (path : Bytes) : Option Bytes :=
  let components := pathL_split_path g path
  if components.ext_offset = 0 ∨ components.ext_offset = path.length then none
  else some (lstring path components.ext_offset (path.length - components.ext_offset))

/-- `path_has_extension` of path.c. -/
def path_has_extension (g : Grammar) (path : Bytes) : Bool :=
  decide ((pathL_split_path g path).ext_offset ≠ 0)

/-- `path_set_extension` of path.c. An absent (or nil) second argument has `ext_len == 0`,
so it is the empty byte string here. -/
def path_set_extension (g : Grammar) (path ext : Bytes) : Bytes :=
  if path.length = 0 then path
  else
    let components := pathL_split_path g path
    if components.file_offset = path.length then path
    else
      let stem_len := if components.ext_offset ≠ 0 then components.ext_offset - 1 else path.length
      if ext.length = 0 then lstring path 0 stem_len
      else lstring path 0 stem_len ++ [46] ++ lstring ext 0 ext.length

/-- `path_file_stem` of path.c. -/
def path_file_stem (g : Grammar) (path : Bytes) : Option Bytes :=
  let components := pathL_split_path g path
  if components.file_offset = path.length then none
  else if components.file_offset = 0 ∧ components.ext_offset = path.length then some path
  else
    let stem_len := path.length - components.ext_offset + (if components.ext_offset ≠ 0 then 1 else 0)
    some (lstring path components.file_offset stem_len)

/-- `path_set_file_stem` of path.c. -/
def path_set_file_stem (g : Grammar) (path file_stem : Bytes) : Bytes :=
  let components := pathL_split_path g path
  if components.file_offset = 0 then file_stem
  else
    let verbatim := components.verbatim
    let ends_with_sep := pathL_is_dirsep g (path.getD (components.file_offset - 1) 0) verbatim
    let ext_len := path.length - components.ext_offset
    lstring path 0 components.file_offset
      ++ (if !ends_with_sep then [STD_PATH_DIRSEP g] else [])
      ++ lstring file_stem 0 file_stem.length
      ++ (if ext_len > 0 then lstring path components.ext_offset ext_len else [])

/-- `struct path_tokenizer` of libpath.c: `path` is the pointer (the bytes from it to the end
of the string), `remaining` the number of bytes still to be tokenized. -/
structure path_tokenizer_t where
  path : Bytes
  remaining : Nat
  verbatim : Bool
  deriving DecidableEq, Repr

/-- The loop `for (; n && pathL_is_dirsep(*p, verbatim); p++, n--);`. -/
def skip_dirsep (g : Grammar) (verbatim : Bool) : Bytes → Nat → Bytes × Nat
  | p, 0 => (p, 0)
  | p, n + 1 =>
    if pathL_is_dirsep g (p.headD 0) verbatim then skip_dirsep g verbatim p.tail n
    else (p, n + 1)

/-- The loop `for (; n && !pathL_is_dirsep(*p, verbatim); p++, n--);`. -/
def skip_not_dirsep (g : Grammar) (verbatim : Bool) : Bytes → Nat → Bytes × Nat
  | p, 0 => (p, 0)
  | p, n + 1 =>
    if !pathL_is_dirsep g (p.headD 0) verbatim then skip_not_dirsep g verbatim p.tail n
    else (p, n + 1)

/-- The loop `for (; n && pathL_is_dirsep(p[-1], verbatim); p--, n--);` where `p` is
`path + n` throughout, so that `p[-1]` is `path[n - 1]`. -/
def skip_dirsep_back (g : Grammar) (verbatim : Bool) (path : Bytes) : Nat → Nat
  | 0 => 0
  | n + 1 =>
    if pathL_is_dirsep g (path.getD n 0) verbatim then skip_dirsep_back g verbatim path n
    else n + 1

/-- The loop `for (; n && !pathL_is_dirsep(p[-1], verbatim); p--, n--);` where `p` is
`path + n` throughout. -/
def skip_not_dirsep_back (g : Grammar) (verbatim : Bool) (path : Bytes) : Nat → Nat
  | 0 => 0
  | n + 1 =>
    if !pathL_is_dirsep g (path.getD n 0) verbatim then skip_not_dirsep_back g verbatim path n
    else n + 1

/-- `path_tokenizer_new` (the allocation is not modelled). -/
def path_tokenizer_new (g : Grammar) (path : Bytes) (path_len : Nat) (verbatim : Bool) :
    path_tokenizer_t :=
  let pn := skip_dirsep g verbatim path path_len
  let n := skip_dirsep_back g verbatim pn.1 pn.2
  ⟨pn.1, n, verbatim⟩

/-- The `while (true)` loop of `path_tokenizer_next`. The result is the token (`none` for
`NULL`, whose `*token_length` is `0`) with the final `p` and `n`. The first argument bounds
the number of iterations; the outer `none` means it ran out. -/
def path_tokenizer_next_loop (g : Grammar) (verbatim : Bool) :
    Nat → Bytes → Nat → Option (Option Bytes × Bytes × Nat)
  | 0, _, _ => none
  | fuel + 1, p, n =>
    let pn := skip_dirsep g verbatim p n
    if pn.2 = 0 then some (none, pn.1, pn.2)
    else
      let q := pn.1
      let pn2 := skip_not_dirsep g verbatim pn.1 pn.2
      let len := pn.2 - pn2.2
      if q.headD 0 ≠ 46 ∨ len ≠ 1 ∨ pn2.2 = 0 ∨ verbatim = true then
        some (some (q.take len), pn2.1, pn2.2)
      else path_tokenizer_next_loop g verbatim fuel pn2.1 pn2.2

/-- `path_tokenizer_next`: the token and the updated tokenizer. Every iteration of the loop
that does not leave it consumes at least two bytes, so `remaining + 1` iterations are
enough (`path_tokenizer_next_isSome`). -/
def path_tokenizer_next (g : Grammar) (t : path_tokenizer_t) :
    Option (Option Bytes × path_tokenizer_t) :=
  (path_tokenizer_next_loop g t.verbatim (t.remaining + 1) t.path t.remaining).map
    fun r => (r.1, ⟨r.2.1, r.2.2, t.verbatim⟩)

/-- The `while (true)` loop of `path_tokenizer_next_back`, with `p = path + n`. The result is
the token (`none` for `NULL`) and the final `n`; the outer `none` means the bound on the
number of iterations ran out. -/
def path_tokenizer_next_back_loop (g : Grammar) (verbatim : Bool) (path : Bytes) :
    Nat → Nat → Option (Option Bytes × Nat)
  | 0, _ => none
  | fuel + 1, n =>
    let n1 := skip_dirsep_back g verbatim path n
    if n1 = 0 then some (none, n1)
    else
      let n2 := skip_not_dirsep_back g verbatim path n1
      if path.getD n2 0 ≠ 46 ∨ n1 ≠ n2 + 1 ∨ n2 = 0 ∨ verbatim = true then
        some (some (lstring path n2 (n1 - n2)), n2)
      else path_tokenizer_next_back_loop g verbatim path fuel n2

/-- `path_tokenizer_next_back`: the token and the updated tokenizer. -/
def path_tokenizer_next_back (g : Grammar) (t : path_tokenizer_t) :
    Option (Option Bytes × path_tokenizer_t) :=
  if t.remaining = 0 then some (none, t)
  else
    (path_tokenizer_next_back_loop g t.verbatim t.path (t.remaining + 1) t.remaining).map
      fun r => (r.1, ⟨t.path, r.2, t.verbatim⟩)

/-- The value stored in `*token_length`: `0` for a `NULL` token. -/
def token_length : Option Bytes → Nat
  | none => 0
  | some tok => tok.length

/-- The bytes a token pointer points at (nothing is read through a `NULL` token). -/
def token_bytes : Option Bytes → Bytes
  | none => []
  | some tok => tok

/-- The `while (true)` loop of `path_starts_with`; the result is the final `result`.
`none`: the bound on the number of iterations ran out. -/
def starts_with_loop (g : Grammar) : Nat → path_tokenizer_t → path_tokenizer_t → Option Bool
  | 0, _, _ => none
  | fuel + 1, path_tokenizer, prefix_tokenizer =>
    match path_tokenizer_next g path_tokenizer, path_tokenizer_next g prefix_tokenizer with
    | some (path_tok, path_tokenizer1), some (prefix_tok, prefix_tokenizer1) =>
      if token_length path_tok = 0 ∨ token_length prefix_tok = 0 then
        some (decide (token_length path_tok = token_length prefix_tok))
      else if pathL_compare (token_bytes path_tok) (token_length path_tok)
          (token_bytes prefix_tok) (token_length prefix_tok) ≠ 0 then
        some false
      else starts_with_loop g fuel path_tokenizer1 prefix_tokenizer1
    | _, _ => none

/-- `path_starts_with` of path.c. -/
def path_starts_with (g : Grammar) (fuel : Nat) (path pfx : Bytes) : Option Bool :=
  if path.length = 0 ∨ pfx.length = 0 then some (decide (path.length = pfx.length))
  else
    let path_root := pathL_root_length g path
    let prefix_root := pathL_root_length g pfx
    if pathL_compare path path_root.1 pfx prefix_root.1 ≠ 0 then some false
    else
      let path_tokenizer :=
        path_tokenizer_new g (path.drop path_root.1) (path.length - path_root.1) path_root.2
      let prefix_tokenizer :=
        path_tokenizer_new g (pfx.drop prefix_root.1) (pfx.length - prefix_root.1) prefix_root.2
      starts_with_loop g fuel path_tokenizer prefix_tokenizer

/-- The `while (true)` loop of `path_ends_with`; the result is the final `result`.
`none`: the bound on the number of iterations ran out. -/
def ends_with_loop (g : Grammar) : Nat → path_tokenizer_t → path_tokenizer_t → Option Bool
  | 0, _, _ => none
  | fuel + 1, path_tokenizer, suffix_tokenizer =>
    match path_tokenizer_next_back g path_tokenizer,
        path_tokenizer_next_back g suffix_tokenizer with
    | some (path_tok, path_tokenizer1), some (suffix_tok, suffix_tokenizer1) =>
      if token_length path_tok = 0 ∧ token_length suffix_tok = 0 then
        ends_with_loop g fuel path_tokenizer1 suffix_tokenizer1
      else if token_length path_tok = 0 ∨ token_length suffix_tok = 0 then
        some (decide (token_length suffix_tok = 0))
      else if pathL_compare (token_bytes path_tok) (token_length path_tok)
          (token_bytes suffix_tok) (token_length suffix_tok) ≠ 0 then
        some false
      else ends_with_loop g fuel path_tokenizer1 suffix_tokenizer1
    | _, _ => none

/-- `path_ends_with` of path.c. -/
def path_ends_with (g : Grammar) (fuel : Nat) (path suffix : Bytes) : Option Bool :=
  if path.length = 0 ∨ suffix.length = 0 then some (decide (suffix.length = 0))
  else
    let path_root := pathL_root_length g path
    let suffix_root := pathL_root_length g suffix
    if pathL_compare path path_root.1 suffix suffix_root.1 ≠ 0 then some false
    else
      let path_tokenizer :=
        path_tokenizer_new g (path.drop path_root.1) (path.length - path_root.1) path_root.2
      let suffix_tokenizer :=
        path_tokenizer_new g (suffix.drop suffix_root.1) (suffix.length - suffix_root.1)
          suffix_root.2
      ends_with_loop g fuel path_tokenizer suffix_tokenizer

/-! ## Components, as the backward tokenizer yields them -/

/-- The tokens that successive calls of `path_tokenizer_next_back` yield, in the order they are
yielded (the last component of the path first), until the tokenizer returns `NULL`. Every
token consumes at least one byte, so `remaining + 1` calls reach the end. -/
def tokens_back (g : Grammar) : Nat → path_tokenizer_t → List Bytes
  | 0, _ => []
  | fuel + 1, t =>
    match path_tokenizer_next_back g t with
    | some (some tok, t1) => tok :: tokens_back g fuel t1
    | _ => []

/-- The components of a path, last one first: the tokens of the backward tokenizer that
`path_ends_with` builds for it (over the part of the path after its root). -/
def components_back (g : Grammar) (path : Bytes) : List Bytes :=
  let root := pathL_root_length g path
  let t := path_tokenizer_new g (path.drop root.1) (path.length - root.1) root.2
  tokens_back g (t.remaining + 1) t

/-- Two components are equal for `pathL_compare`: same length, equal up to ASCII case. -/
def component_eq (a b : Bytes) : Prop := pathL_compare a a.length b b.length = 0

/-- `pathL_is_partially_qualified` of libpath_unix.c / libpath_win.c. -/
def pathL_is_partially_qualified (g : Grammar) (path : Bytes) : Bool :=
  match g with
  | .posix => !pathL_is_rooted .posix path
  | .windows =>
    if path.length < 2 then true
    else if pathL_is_dirsep .windows (path.getD 0 0) false then
      path.getD 1 0 != 63 && !pathL_is_dirsep .windows (path.getD 1 0) false
    else if decide (path.length > 2) && is_volume_sep (path.getD 1 0)
        && pathL_is_dirsep .windows (path.getD 2 0) false then
      !is_drive_char (path.getD 0 0)
    else true

/-- `pathL_is_fully_qualified` of libpath_unix.c / libpath_win.c. In the last line of the
Windows version `&&` binds tighter than `||`. -/
def pathL_is_fully_qualified (g : Grammar) (path : Bytes) : Bool :=
  match g with
  | .posix => !pathL_is_partially_qualified .posix path
  | .windows =>
    if path.length < 2 then false
    else if is_volume_sep (path.getD 1 0) && is_drive_char (path.getD 0 0) then
      decide (path.length > 2) && pathL_is_dirsep .windows (path.getD 2 0) false
    else
      path.getD 0 0 == 47 ||
        (path.getD 0 0 == 92 && (path.getD 1 0 == 92 || path.getD 1 0 == 63))

/-- `path_parent` of path.c. -/
def path_parent (g : Grammar) (path : Bytes) : Option Bytes :=
  let components := pathL_split_path g path
  if components.root_len = path.length ∨ components.dir_len = 0 then none
  else some (lstring path 0 components.dir_len)

/-- `path_file_name` of path.c. -/
def path_file_name (g : Grammar) (path : Bytes) : Option Bytes :=
  let components := pathL_split_path g path
  let file_offset := components.file_offset
  if file_offset = path.length then none
  else if file_offset = 0 then some path
  else some (lstring path file_offset (path.length - file_offset))

/-- `path_split` of path.c: the list of the values returned, `none` standing for `nil`. -/
def path_split (g : Grammar) (path : Bytes) : List (Option Bytes) :=
  if path.length = 0 then []
  else
    let components := pathL_split_path g path
    let first := if components.dir_len > 0 then some (lstring path 0 components.dir_len) else none
    if components.file_offset = path.length then [first]
    else [first, some (lstring path components.file_offset (path.length - components.file_offset))]

/-- `is_valid_path_char` of libpath_unix.c / libpath_win.c. On Windows `c` is a signed `char`,
so a byte above 127 is negative and fails `c > 31`. -/
def is_valid_path_char (g : Grammar) (c : Nat) : Bool :=
  match g with
  | .posix => c != 0
  | .windows => decide (c % 256 < 128) && decide (c > 31) && c != 124

/-- `pathL_is_valid_path`. -/
def pathL_is_valid_path (g : Grammar) (path : Bytes) : Bool :=
  path.all (is_valid_path_char g)

/-- `pathL_is_empty`: every byte is a space. -/
def pathL_is_empty (path : Bytes) : Bool :=
  path.all (fun c => c == 32)

/-- `INT_MAX` of limits.h. -/
def INT_MAX : Nat := 2147483647

/-- `pathL_checklpath` applied to a string argument: the path, or the message of the
argument error raised by `luaL_argerror`. -/
def pathL_checklpath (g : Grammar) (path : Bytes) : Except String Bytes :=
  if path.length > INT_MAX then .error "path too long"
  else if !pathL_is_valid_path g path then .error "invalid path"
  else .ok path

/-- `pathL_optlpath` applied to an optional string argument (`none` for an absent one). -/
def pathL_optlpath (g : Grammar) (arg : Option Bytes) : Except String (Option Bytes) :=
  match arg with
  | none => .ok none
  | some path =>
    if path.length > INT_MAX then .error "path too long"
    else if pathL_is_empty path then .error "empty path"
    else if !pathL_is_valid_path g path then .error "invalid path"
    else .ok (some path)

/-- `path_root` of path.c (the test `path == NULL` cannot succeed after
`pathL_checklpath`). -/
def path_root (g : Grammar) (arg : Bytes) : Except String (Option Bytes) :=
  match pathL_checklpath g arg with
  | .error e => .error e
  | .ok path =>
    if path.length = 0 then .ok (some path)
    else
      let components := pathL_split_path g path
      if components.root_len = 0 then .ok none
      else if components.root_len = path.length then .ok (some path)
      else .ok (some (lstring path 0 components.root_len))

/-- `path_set_root` of path.c. -/
def path_set_root (g : Grammar) (arg1 arg2 : Bytes) : Except String Bytes :=
  match pathL_checklpath g arg1, pathL_checklpath g arg2 with
  | .ok path, .ok root =>
    let components := pathL_split_path g path
    if components.root_len = path.length then .ok root
    else if components.root_len = 0 then .ok path
    else
      .ok (lstring root 0 root.length ++ [STD_PATH_DIRSEP g]
        ++ lstring path components.root_len (path.length - components.root_len))
  | .error e, _ => .error e
  | _, .error e => .error e

/-- The index just past the first byte satisfying `p` at or after offset `start` of `path`;
the whole length of `path` if there is none. -/
def index_past_first (p : Nat → Bool) (path : Bytes) (start : Nat) : Nat :=
  let k := (path.drop start).findIdx p
  if k < (path.drop start).length then start + k + 1 else path.length

/-- The loop of `pathL_is_normalized` of libpath_unix.c,
`for (size_t i = 1; i < path_len; i++) if (is_dirsep(path[i]) && is_dirsep(path[i - 1])) return false;`
followed by `return true`. The argument is the part of the path from index `i - 1` on. -/
def is_normalized_unix_loop : Bytes → Bool
  | [] => true
  | [_] => true
  | a :: b :: rest =>
    if pathL_is_dirsep .posix b false && pathL_is_dirsep .posix a false then false
    else is_normalized_unix_loop (b :: rest)

/-- The loop of `pathL_is_normalized` of libpath_win.c,
`for (size_t i = root_len; i < path_len; i++) { char c = *path++; if (c == ALTDIRSEP || c == DIRSEP && last == DIRSEP) return false; last = c; }`
followed by `return true`. The first argument is the number of iterations left
(`path_len - i`), the second the pointer `path`, which the loop advances from the start of
the string. -/
def is_normalized_win_loop : Nat → Bytes → Nat → Bool
  | 0, _, _ => true
  | n + 1, p, last =>
    let c := p.headD 0
    if c == STD_PATH_ALTDIRSEP .windows
        || (c == STD_PATH_DIRSEP .windows && last == STD_PATH_DIRSEP .windows) then false
    else is_normalized_win_loop n p.tail c

/-- `pathL_is_normalized` of libpath_unix.c / libpath_win.c. -/
def pathL_is_normalized (g : Grammar) (path : Bytes) : Bool :=
  match g with
  | .posix => is_normalized_unix_loop path
  | .windows =>
    if path.length = 0 then true
    else
      let root := pathL_root_length .windows path
      if root.2 then true
      else is_normalized_win_loop (path.length - root.1) path 0

/-- The loop of `pathL_normalize` of libpath_unix.c: a byte that is not a separator is copied
and clears `skip_sep`; a separator is copied, and sets `skip_sep`, only when `skip_sep` is
clear. The result is what the loop appends to `tmp`. -/
def normalize_unix_loop : Bool → Bytes → Bytes
  | _, [] => []
  | skip_sep, c :: rest =>
    if !pathL_is_dirsep .posix c false then c :: normalize_unix_loop false rest
    else if !skip_sep then c :: normalize_unix_loop true rest
    else normalize_unix_loop skip_sep rest

/-- The `while (i < path_len)` loop of `pathL_normalize` of libpath_win.c: as the POSIX one,
but the byte written for a separator is `_STD_PATH_DIRSEP`. -/
def normalize_win_loop : Bool → Bytes → Bytes
  | _, [] => []
  | skip_sep, c :: rest =>
    if !pathL_is_dirsep .windows c false then c :: normalize_win_loop false rest
    else if !skip_sep then STD_PATH_DIRSEP .windows :: normalize_win_loop true rest
    else normalize_win_loop skip_sep rest

/-- `pathL_normalize` of libpath_unix.c / libpath_win.c: the string pushed. -/
def pathL_normalize (g : Grammar) (path : Bytes) : Bytes :=
  match g with
  | .posix =>
    if pathL_is_normalized .posix path then path
    else normalize_unix_loop false path
  | .windows =>
    if pathL_is_dirsep .windows (path.getD 0 0) false then
      STD_PATH_DIRSEP .windows :: normalize_win_loop false (path.drop 1)
    else normalize_win_loop false path

/-- `path_normalize` of path.c. -/
def path_normalize (g : Grammar) (path : Bytes) : Bytes :=
  if pathL_is_normalized g path then path
  else pathL_normalize g path

/-- The POSIX path `p` with every maximal run of one or more separators replaced by a single
separator, every other byte passed through unchanged and in order. -/
def collapse_separator_runs : Bytes → Bytes
  | [] => []
  | c :: rest =>
    if c = 47 then 47 :: collapse_separator_runs (rest.dropWhile (fun d => d == 47))
    else c :: collapse_separator_runs rest
termination_by p => p.length
decreasing_by
  · simp only [List.length_cons]
    exact Nat.lt_succ_of_le (List.Sublist.length_le (List.dropWhile_sublist _))
  · simp

/-- `arg_t` of `path_combine`. -/
structure arg_t where
  path : Bytes
  path_len : Nat
  ends_with_sep : Bool
  deriving DecidableEq, Repr

/-- The variables of the first loop of `path_combine`, with the array `args` filled so far. -/
structure combine_scan_t where
  has_verbatim_root : Bool
  len : Nat
  first : Nat
  last : Nat
  args : List arg_t
  deriving DecidableEq, Repr

/-- The first loop of `path_combine`, `for (int i = 0; i < n; i++) { ... }`, over the
arguments from index `i` on. -/
def combine_scan (g : Grammar) : List Bytes → Nat → combine_scan_t → combine_scan_t
  | [], _, st => st
  | path :: rest, i, st =>
    if path.length = 0 then
      combine_scan g rest (i + 1) { st with args := st.args ++ [⟨path, 0, false⟩] }
    else
      let root := pathL_root_length g path
      let verbatim := root.2
      let reset := decide (root.1 > 0) && !st.has_verbatim_root
      let first := if reset then i else st.first
      let len := if reset then 0 else st.len
      let has_verbatim_root := if reset then verbatim else st.has_verbatim_root
      let ends_with_sep := pathL_is_dirsep g (path.getD (path.length - 1) 0) verbatim
      combine_scan g rest (i + 1)
        { has_verbatim_root := has_verbatim_root
          len := len + path.length + (if ends_with_sep then 1 else 0)
          first := first
          last := i
          args := st.args ++ [⟨path, path.length, ends_with_sep⟩] }

/-- The second loop of `path_combine`, `for (int i = first; i <= last; i++) { ... }`, over
the entries of `args` from index `i` on: what it adds to the buffer. -/
def combine_emit (g : Grammar) (last : Nat) : List arg_t → Nat → Bytes
  | [], _ => []
  | arg :: rest, i =>
    if i ≤ last then
      (if arg.path_len = 0 then []
        else arg.path ++ (if decide (i ≠ last) && !arg.ends_with_sep then [STD_PATH_DIRSEP g]
          else []))
        ++ combine_emit g last rest (i + 1)
    else []

/-- `path_combine` of path.c on string arguments: `none` when it returns no value (no
argument), else the string pushed. -/
def path_combine (g : Grammar) (fragments : List Bytes) : Option Bytes :=
  if fragments.length = 0 then none
  else
    let st := combine_scan g fragments 0 ⟨false, 0, 0, 0, []⟩
    if st.len = 0 then some []
    else some (combine_emit g st.last (st.args.drop st.first) st.first)

/-- The index of the last element of a list that satisfies `p`, if there is one. -/
def last_index_of (p : Bytes → Bool) : List Bytes → Option Nat
  | [] => none
  | f :: rest =>
    match last_index_of p rest with
    | some j => some (j + 1)
    | none => if p f then some 0 else none

/-- The concatenation of the fragments, in order, with one POSIX separator inserted after each
fragment except the last exactly when that fragment does not already end with a separator. -/
def join_fragments : List Bytes → Bytes
  | [] => []
  | [f] => f
  | f :: f2 :: rest =>
    f ++ (if f.getLast? = some 47 then [] else [47]) ++ join_fragments (f2 :: rest)

/-- The fragment is not the empty string. -/
def fragment_nonempty (f : Bytes) : Bool := decide (f ≠ [])

/-- The fragment is non-empty and rooted (POSIX grammar). -/
def fragment_rooted (f : Bytes) : Bool := fragment_nonempty f && pathL_is_rooted .posix f

/-- The windowed join of the claim (POSIX grammar): with `k` the index of the last non-empty
rooted fragment (the first fragment if there is none), the join of the non-empty fragments
from index `k` on. -/
def windowed_join (fragments : List Bytes) : Bytes :=
  let k := (last_index_of fragment_rooted fragments).getD 0
  join_fragments ((fragments.drop k).filter fragment_nonempty)

/-- The entry of `args` that the first loop of `path_combine` stores for a fragment on the
POSIX grammar (for an empty fragment the flag stays `false`). -/
def combine_arg (f : Bytes) : arg_t :=
  ⟨f, f.length, fragment_nonempty f && pathL_is_dirsep .posix (f.getD (f.length - 1) 0) false⟩

/-- The loop of the rewind of `pathL_full_path`,
`for (size_t j = tmp_len; j-- > root_len;) if (is_dirsep(tmp[j])) { new_tmp_len = j; break; }`
with `new_tmp_len` initialised to `skip`. The last argument is `j` before the test and the
decrement. -/
def full_path_rewind_scan (tmp : Bytes) (root_len skip : Nat) : Nat → Nat
  | 0 => skip
  | j + 1 =>
    if j + 1 > root_len then
      if pathL_is_dirsep .posix (tmp.getD j 0) false then j
      else full_path_rewind_scan tmp root_len skip j
    else skip

/-- The rewind on `/..` of `pathL_full_path`: the new contents of `tmp` (its first `tmp_len`
bytes), `tmp_len = new_tmp_len < skip ? skip : new_tmp_len`. -/
def full_path_rewind (tmp : Bytes) (root_len skip : Nat) : Bytes :=
  let new_tmp_len := full_path_rewind_scan tmp root_len skip tmp.length
  tmp.take (if new_tmp_len < skip then skip else new_tmp_len)

/-- The main loop of `pathL_full_path` (libpath_unix.c),
`for (size_t i = skip; i < path_len; i++) { ... }`. The third argument `p` is the pointer
`path + i`, so that `path[i + k]` is `p.getD k 0`, `i + k < path_len` is `k < p.length` and
`i + k == path_len` is `p.length = k`; the last argument is `tmp` (its first `tmp_len` bytes).
The first argument bounds the number of iterations left; every iteration advances `i`, so
`p.length` of them are enough. -/
def full_path_loop (root_len skip : Nat) : Nat → Bytes → Bytes → Bytes
  | 0, _, tmp => tmp
  | fuel + 1, p, tmp =>
    if p.length = 0 then tmp
    else
      let c := p.getD 0 0
      if pathL_is_dirsep .posix c false && decide (1 < p.length) then
        if pathL_is_dirsep .posix (p.getD 1 0) false then
          full_path_loop root_len skip fuel (p.drop 1) tmp
        else if (decide (p.length = 2) || pathL_is_dirsep .posix (p.getD 2 0) false)
            && p.getD 1 0 == 46 then
          full_path_loop root_len skip fuel (p.drop 2) tmp
        else if decide (2 < p.length)
            && (decide (p.length = 3) || pathL_is_dirsep .posix (p.getD 3 0) false)
            && p.getD 1 0 == 46 && p.getD 2 0 == 46 then
          full_path_loop root_len skip fuel (p.drop 3) (full_path_rewind tmp root_len skip)
        else full_path_loop root_len skip fuel (p.drop 1) (tmp ++ [c])
      else full_path_loop root_len skip fuel (p.drop 1) (tmp ++ [c])

/-- `pathL_full_path` of libpath_unix.c. `cwd` is what `push_cwd` obtains from `getcwd`
(`none` when it fails); the result is the string pushed, `none` when the function returns
`nil` and an error (or when `assert(root_len > 0)` fails). -/
def pathL_full_path (cwd : Option Bytes) (arg : Bytes) : Option Bytes :=
  let rooted_path : Option Bytes :=
    if !pathL_is_rooted .posix arg then cwd.map (fun b => b ++ [STD_PATH_DIRSEP .posix] ++ arg)
    else some arg
  match rooted_path with
  | none => none
  | some path =>
    let root_len := (pathL_root_length .posix path).1
    if root_len = 0 then none
    else
      let skip :=
        if pathL_is_dirsep .posix (path.getD (root_len - 1) 0) false then root_len - 1
        else root_len
      let tmp := full_path_loop root_len skip (path.length - skip) (path.drop skip)
        (lstring path 0 skip)
      if skip ≠ root_len ∧ tmp.length < root_len then some (tmp ++ [path.getD (root_len - 1) 0])
      else some tmp

/-- `path_full_path` of path.c on the POSIX grammar; the second argument is optional. -/
def path_full_path (cwd : Option Bytes) (arg1 : Bytes) (arg2 : Option Bytes) :
    Except String (Option Bytes) :=
  match pathL_checklpath .posix arg1, pathL_optlpath .posix arg2 with
  | .error e, _ => .error e
  | .ok _, .error e => .error e
  | .ok path, .ok none => .ok (pathL_full_path cwd path)
  | .ok path, .ok (some base_path) =>
    if !pathL_is_fully_qualified .posix base_path then .error "path is not fully qualified"
    else if pathL_is_fully_qualified .posix path then .ok (pathL_full_path cwd path)
    else if path.length = 0 then .ok (pathL_full_path cwd base_path)
    else if base_path.length > 0 then
      .ok (pathL_full_path cwd (base_path ++ [STD_PATH_DIRSEP .posix] ++ path))
    else .ok (pathL_full_path cwd path)

/-- The pieces of a POSIX path between its separators, empty pieces included. -/
def split_at_separators : Bytes → List Bytes
  | [] => [[]]
  | c :: rest =>
    if c = 47 then [] :: split_at_separators rest
    else
      match split_at_separators rest with
      | [] => [[c]]
      | piece :: more => (c :: piece) :: more

/-- The components of a POSIX path: the maximal runs of bytes that are not separators. -/
def path_components (p : Bytes) : List Bytes :=
  (split_at_separators p).filter (fun piece => decide (piece ≠ []))

/-- No two adjacent bytes of the path are both separators. -/
def no_adjacent_separators (p : Bytes) : Prop :=
  List.Chain' (fun a b => ¬ (a = 47 ∧ b = 47)) p

/-- No component of the path is `.` or `..`. -/
def no_dot_components (p : Bytes) : Prop :=
  [46] ∉ path_components p ∧ [46, 46] ∉ path_components p

/-- The path made of the given components, each preceded by a separator. -/
def render_components : List Bytes → Bytes
  | [] => []
  | c :: cs => 47 :: c ++ render_components cs

/-- The main loop of `pathL_full_path` run from the pointer `p` to the end of the string. -/
def full_path_run (root_len skip : Nat) (p tmp : Bytes) : Bytes :=
  full_path_loop root_len skip p.length p tmp

/-- A component that `pathL_full_path` keeps: a non-empty run of bytes that are not separators,
other than `.` and `..`. -/
def kept_component (c : Bytes) : Prop :=
  c ≠ [] ∧ 47 ∉ c ∧ c ≠ [46] ∧ c ≠ [46, 46]

/-- `utilL_normalize_index` of libutil.c. `index` is a `lua_Integer`; the result is a `size_t`,
and the last line adds `(size_t)index` in 64-bit unsigned arithmetic. -/
def utilL_normalize_index (index : Int) (len : Nat) : Nat :=
  if index > 0 then index.toNat
  else if index = 0 ∨ index < -(len : Int) then 1
  else (len + (index % 2 ^ 64).toNat + 1) % 2 ^ 64

/-- The byte position (1-based) that `path_is_separator` examines for a non-empty path:
it reads `path[index - 1]` with `index = utilL_normalize_index(...)`. -/
def is_separator_position (path : Bytes) (index : Int) : Nat :=
  utilL_normalize_index index path.length

/-- `path_is_separator` of path.c. -/
def path_is_separator (g : Grammar) (path : Bytes) (index : Int) : Bool :=
  let index := utilL_normalize_index index path.length
  if path.length = 0 then false
  else pathL_is_dirsep g (path.getD (index - 1) 0) (pathL_is_verbatim g path)

/-- `is_valid_file_name_char` of libpath_unix.c / libpath_win.c (on Windows `c` is a signed
`char`). -/
def is_valid_file_name_char (g : Grammar) (c : Nat) : Bool :=
  match g with
  | .posix => c != 0 && c != 47
  | .windows =>
    decide (c % 256 < 128) && decide (c > 31) && c != 34 && c != 42 && c != 47 && c != 58
      && c != 60 && c != 62 && c != 63 && c != 92 && c != 124

/-- `pathL_is_valid_file_name`. -/
def pathL_is_valid_file_name (g : Grammar) (path : Bytes) : Bool :=
  path.all (is_valid_file_name_char g)

/-- The tokens that successive calls of `path_tokenizer_next` yield, in the order they are
yielded, until the tokenizer returns `NULL`. Every token consumes at least one byte, so
`remaining + 1` calls reach the end. -/
def tokens_forward (g : Grammar) : Nat → path_tokenizer_t → List Bytes
  | 0, _ => []
  | fuel + 1, t =>
    match path_tokenizer_next g t with
    | some (some tok, t1) => tok :: tokens_forward g fuel t1
    | _ => []

/-- The forward tokens of a fresh tokenizer over the root-stripped path `s`. -/
def forward_tokens_of (g : Grammar) (s : Bytes) (verbatim : Bool) : List Bytes :=
  let t := path_tokenizer_new g s s.length verbatim
  tokens_forward g (t.remaining + 1) t

/-- The backward tokens of a fresh tokenizer over the root-stripped path `s`, in the order
they are yielded. -/
def backward_tokens_of (g : Grammar) (s : Bytes) (verbatim : Bool) : List Bytes :=
  let t := path_tokenizer_new g s s.length verbatim
  tokens_back g (t.remaining + 1) t

/-- The textbook stack resolution of a list of components: the first argument is the stack
(top last); `.` is ignored, `..` pops (nothing on an empty stack), anything else is pushed. -/
def resolve_components : List Bytes → List Bytes → List Bytes
  | st, [] => st
  | st, c :: cs =>
    if c = [46] then resolve_components st cs
    else if c = [46, 46] then resolve_components st.dropLast cs
    else resolve_components (st ++ [c]) cs

/-- The components joined with one separator between two neighbours. -/
def join_components : List Bytes → Bytes
  | [] => []
  | [c] => c
  | c :: d :: rest => c ++ 47 :: join_components (d :: rest)

/-- The stack resolution of a rooted POSIX path: `"/" ++ join(st, "/") ++ t`, where `st` is the
stack left by scanning the non-empty components of `p` and `t` is `"/"` when `st` is not empty
and the last byte of `p` is a separator, and empty otherwise. -/
def stack_full_path (p : Bytes) : Bytes :=
  let st := resolve_components [] (path_components p)
  47 :: (join_components st ++ (if st ≠ [] ∧ p.getLast? = some 47 then [47] else []))

/-! ## Helper lemmas -/

theorem lstring_length (s : Bytes) (off len : Nat) : (lstring s off len).length = len := by
  simp [lstring]
  omega

theorem lstring_zero_of_le (s : Bytes) (n : Nat) (h : n ≤ s.length) :
    lstring s 0 n = s.take n := by
  have h0 : 0 + n - s.length = 0 := by omega
  unfold lstring
  rw [h0]
  simp

theorem lstring_self (s : Bytes) : lstring s 0 s.length = s := by
  rw [lstring_zero_of_le s s.length (le_refl _)]
  simp

theorem skip_dirsep_back_le (g : Grammar) (v : Bool) (path : Bytes) (n : Nat) :
    skip_dirsep_back g v path n ≤ n := by
  induction n with
  | zero => simp [skip_dirsep_back]
  | succ n ih =>
    unfold skip_dirsep_back
    split
    · omega
    · exact le_refl _

theorem skip_dirsep_back_stop (g : Grammar) (v : Bool) (path : Bytes) (n m : Nat)
    (h : skip_dirsep_back g v path n = m + 1) : pathL_is_dirsep g (path.getD m 0) v = false := by
  induction n with
  | zero => simp [skip_dirsep_back] at h
  | succ n ih =>
    unfold skip_dirsep_back at h
    split at h
    · exact ih h
    · rename_i hn
      have : n = m := by omega
      subst this
      simpa using hn

theorem skip_not_dirsep_back_lt (g : Grammar) (v : Bool) (path : Bytes) (m : Nat)
    (h : pathL_is_dirsep g (path.getD m 0) v = false) :
    skip_not_dirsep_back g v path (m + 1) ≤ m := by
  have hle : ∀ n, skip_not_dirsep_back g v path n ≤ n := by
    intro n
    induction n with
    | zero => simp [skip_not_dirsep_back]
    | succ n ih =>
      unfold skip_not_dirsep_back
      split
      · omega
      · exact le_refl _
  rw [skip_not_dirsep_back, if_pos (by rw [h]; rfl)]
  exact hle m

theorem next_back_loop_isSome (g : Grammar) (v : Bool) (path : Bytes) (fuel n : Nat)
    (h : n < fuel) : (path_tokenizer_next_back_loop g v path fuel n).isSome = true := by
  induction fuel generalizing n with
  | zero => omega
  | succ fuel ih =>
    unfold path_tokenizer_next_back_loop
    simp only
    split
    · rfl
    · rename_i h1
      split
      · rfl
      · rename_i h2
        apply ih
        have := skip_dirsep_back_le g v path n
        simp only [not_or, not_not] at h2
        omega

theorem next_back_loop_token (g : Grammar) (v : Bool) (path : Bytes) (fuel n : Nat)
    (tok : Bytes) (n' : Nat)
    (h : path_tokenizer_next_back_loop g v path fuel n = some (some tok, n')) :
    n' < n ∧ 0 < tok.length := by
  induction fuel generalizing n with
  | zero => simp [path_tokenizer_next_back_loop] at h
  | succ fuel ih =>
    unfold path_tokenizer_next_back_loop at h
    simp only at h
    have hle := skip_dirsep_back_le g v path n
    split at h
    · simp at h
    · rename_i h1
      obtain ⟨m, hm⟩ := Nat.exists_eq_succ_of_ne_zero h1
      have hstop := skip_dirsep_back_stop g v path n m hm
      have hlt := skip_not_dirsep_back_lt g v path m hstop
      rw [hm] at h
      split at h
      · simp only [Option.some.injEq, Prod.mk.injEq] at h
        obtain ⟨h3, h4⟩ := h
        subst h4
        rw [← h3, lstring_length]
        simp only [Nat.succ_eq_add_one] at *
        omega
      · have := ih _ h
        simp only [Nat.succ_eq_add_one] at *
        omega

theorem next_back_isSome (g : Grammar) (t : path_tokenizer_t) :
    (path_tokenizer_next_back g t).isSome = true := by
  unfold path_tokenizer_next_back
  split
  · rfl
  · simp only [Option.isSome_map']
    exact next_back_loop_isSome g _ _ _ _ (Nat.lt_succ_self _)

theorem next_back_token (g : Grammar) (t t1 : path_tokenizer_t) (tok : Bytes)
    (h : path_tokenizer_next_back g t = some (some tok, t1)) :
    t1.remaining < t.remaining ∧ 0 < tok.length := by
  unfold path_tokenizer_next_back at h
  split at h
  · simp at h
  · simp only [Option.map_eq_some', Prod.mk.injEq] at h
    obtain ⟨r, hr, h1, h2⟩ := h
    subst h2
    obtain ⟨a, b⟩ := r
    simp only at h1
    subst h1
    exact next_back_loop_token g _ _ _ _ _ _ hr

/-- The list of tokens does not depend on the bound once it exceeds `remaining`: the list that
`components_back` takes is the whole sequence of tokens. -/
theorem tokens_back_fuel (g : Grammar) (f1 f2 : Nat) (t : path_tokenizer_t)
    (h1 : t.remaining < f1) (h2 : t.remaining < f2) :
    tokens_back g f1 t = tokens_back g f2 t := by
  induction f1 generalizing f2 t with
  | zero => omega
  | succ f1 ih =>
    cases f2 with
    | zero => omega
    | succ f2 =>
      unfold tokens_back
      cases hn : path_tokenizer_next_back g t with
      | none => rfl
      | some r =>
        obtain ⟨tok, t1⟩ := r
        cases tok with
        | none => rfl
        | some tok =>
          have := (next_back_token g t t1 tok hn).1
          simp only
          rw [ih f2 t1 (by omega) (by omega)]

theorem skip_dirsep_snd_le (g : Grammar) (v : Bool) (p : Bytes) (n : Nat) :
    (skip_dirsep g v p n).2 ≤ n := by
  induction n generalizing p with
  | zero => simp [skip_dirsep]
  | succ n ih =>
    unfold skip_dirsep
    split
    · have := ih p.tail
      omega
    · exact le_refl _

theorem next_loop_isSome (g : Grammar) (v : Bool) (fuel : Nat) (p : Bytes) (n : Nat)
    (h : n < fuel) : (path_tokenizer_next_loop g v fuel p n).isSome = true := by
  induction fuel generalizing p n with
  | zero => omega
  | succ fuel ih =>
    unfold path_tokenizer_next_loop
    simp only
    split
    · rfl
    · split
      · rfl
      · rename_i h2
        apply ih
        have := skip_dirsep_snd_le g v p n
        simp only [not_or, not_not] at h2
        omega

theorem path_tokenizer_next_isSome (g : Grammar) (t : path_tokenizer_t) :
    (path_tokenizer_next g t).isSome = true := by
  unfold path_tokenizer_next
  simp only [Option.isSome_map']
  exact next_loop_isSome g _ _ _ _ (Nat.lt_succ_self _)

theorem strncasecmp_zero (a b : Bytes) : strncasecmp a b 0 = 0 := by
  unfold strncasecmp
  rfl

/-- The loop of `ends_with` on two tokenizers of which the second yields fewer tokens. -/
theorem ends_with_loop_proper (g : Grammar) (ts : List Bytes) :
    ∀ (matched rest : List Bytes) (pt st : path_tokenizer_t) (f1 f2 fuel : Nat),
      tokens_back g f1 pt = matched ++ rest → rest ≠ [] →
      tokens_back g f2 st = ts → st.remaining < f2 →
      List.Forall₂ component_eq matched ts → ts.length < fuel →
      ends_with_loop g fuel pt st = some true := by
  induction ts with
  | nil =>
    intro matched rest pt st f1 f2 fuel hp hrest hs hf2 hm hfuel
    cases hm
    obtain ⟨fuel, rfl⟩ := Nat.exists_eq_succ_of_ne_zero (Nat.pos_iff_ne_zero.mp hfuel)
    obtain ⟨f2, rfl⟩ := Nat.exists_eq_succ_of_ne_zero (Nat.not_eq_zero_of_lt hf2)
    cases f1 with
    | zero => simp [tokens_back] at hp; exact absurd hp hrest
    | succ f1 =>
      simp only [List.nil_append] at hp
      unfold tokens_back at hp hs
      unfold ends_with_loop
      have hsome := next_back_isSome g st
      cases hpn : path_tokenizer_next_back g pt with
      | none => rw [hpn] at hp; exact absurd hp.symm hrest
      | some r =>
        obtain ⟨ptok, pt1⟩ := r
        cases ptok with
        | none => rw [hpn] at hp; exact absurd hp.symm hrest
        | some tok =>
          have htok := (next_back_token g pt pt1 tok hpn).2
          cases hsn : path_tokenizer_next_back g st with
          | none => rw [hsn] at hsome; simp at hsome
          | some r2 =>
            obtain ⟨stok, st1⟩ := r2
            cases stok with
            | some tok2 => rw [hsn] at hs; simp at hs
            | none =>
              simp only [token_length]
              have : tok.length ≠ 0 := by omega
              simp [this]
  | cons b ts ih =>
    intro matched rest pt st f1 f2 fuel hp hrest hs hf2 hm hfuel
    cases hm with
    | cons hab hm' =>
      rename_i a matched'
      obtain ⟨fuel, rfl⟩ := Nat.exists_eq_succ_of_ne_zero (Nat.not_eq_zero_of_lt hfuel)
      cases f1 with
      | zero => simp [tokens_back] at hp
      | succ f1 =>
        cases f2 with
        | zero => simp [tokens_back] at hs
        | succ f2 =>
          unfold tokens_back at hp hs
          unfold ends_with_loop
          cases hpn : path_tokenizer_next_back g pt with
          | none => rw [hpn] at hp; simp at hp
          | some r =>
            obtain ⟨ptok, pt1⟩ := r
            cases ptok with
            | none => rw [hpn] at hp; simp at hp
            | some tok =>
              cases hsn : path_tokenizer_next_back g st with
              | none => rw [hsn] at hs; simp at hs
              | some r2 =>
                obtain ⟨stok, st1⟩ := r2
                cases stok with
                | none => rw [hsn] at hs; simp at hs
                | some tok2 =>
                  rw [hpn] at hp
                  rw [hsn] at hs
                  simp only [List.cons_append, List.cons.injEq] at hp hs
                  obtain ⟨hp1, hp2⟩ := hp
                  obtain ⟨hs1, hs2⟩ := hs
                  subst hp1 hs1
                  have h1 := next_back_token g pt pt1 tok hpn
                  have h2 := next_back_token g st st1 tok2 hsn
                  have hc : pathL_compare tok tok.length tok2 tok2.length = 0 := hab
                  have e1 : tok.length ≠ 0 := by omega
                  have e2 : tok2.length ≠ 0 := by omega
                  simp only [token_length, token_bytes, e1, e2, false_and, false_or, if_false,
                    hc, ne_eq, not_true_eq_false]
                  apply ih matched' rest pt1 st1 f1 f2 fuel hp2 hrest hs2 (by omega) hm'
                  simp only [List.length_cons] at hfuel
                  omega

/-- Two exhausted tokenizers: the loop of `ends_with` takes its `continue` branch in every
iteration, whatever the bound. -/
theorem ends_with_loop_exhausted (g : Grammar) (fuel : Nat) (pt st : path_tokenizer_t)
    (hp : pt.remaining = 0) (hs : st.remaining = 0) : ends_with_loop g fuel pt st = none := by
  induction fuel with
  | zero => rfl
  | succ fuel ih =>
    unfold ends_with_loop
    simp [path_tokenizer_next_back, hp, hs, token_length, ih]

theorem strncasecmp_self (a : Bytes) (n : Nat) : strncasecmp a a n = 0 := by
  induction n generalizing a with
  | zero => exact strncasecmp_zero a a
  | succ n ih =>
    unfold strncasecmp
    simp only [ne_eq, not_true_eq_false, if_false]
    split
    · rfl
    · exact ih a.tail

theorem pathL_compare_self (a : Bytes) (n : Nat) : pathL_compare a n a n = 0 := by
  simp [pathL_compare, strncasecmp_self]

/-- The loop of `ends_with` on twice the same tokenizer state never leaves: equal tokens
match, and once both sides are exhausted it only takes the `continue` branch. -/
theorem ends_with_loop_same (g : Grammar) (fuel : Nat) (t : path_tokenizer_t) :
    ends_with_loop g fuel t t = none := by
  induction fuel generalizing t with
  | zero => rfl
  | succ fuel ih =>
    unfold ends_with_loop
    cases hn : path_tokenizer_next_back g t with
    | none => rfl
    | some r =>
      obtain ⟨tok, t1⟩ := r
      cases tok with
      | none => simp [token_length, ih]
      | some tok =>
        have h := (next_back_token g t t1 tok hn).2
        have e : tok.length ≠ 0 := by omega
        simp [token_length, token_bytes, e, pathL_compare_self, ih]

/-- For every non-empty path, on both grammars, `ends_with(path, path)` returns no boolean
within any number of iterations. -/
theorem ends_with_self_never_returns (g : Grammar) (path : Bytes) (fuel : Nat)
    (h : path ≠ []) : path_ends_with g fuel path path = none := by
  have h0 : path.length ≠ 0 := by simpa using h
  unfold path_ends_with
  simp [h0, pathL_compare_self, ends_with_loop_same]

theorem split_ext_offset_txt (s : Bytes) (fo : Nat) :
    split_ext_offset (s ++ [46, 116, 120, 116]) fo (s.length + 4) =
      if s.length > fo + 1 then s.length + 1 else 0 := by
  have g0 : (s ++ [46, 116, 120, 116]).getD s.length 0 = 46 := by
    rw [List.getD_append_right _ _ _ _ (le_refl _)]; simp
  have g1 : (s ++ [46, 116, 120, 116]).getD (s.length + 1) 0 = 116 := by
    rw [List.getD_append_right _ _ _ _ (by omega)]; simp
  have g2 : (s ++ [46, 116, 120, 116]).getD (s.length + 2) 0 = 120 := by
    rw [List.getD_append_right _ _ _ _ (by omega)]; simp
  have g3 : (s ++ [46, 116, 120, 116]).getD (s.length + 3) 0 = 116 := by
    rw [List.getD_append_right _ _ _ _ (by omega)]; simp
  rw [show s.length + 4 = (s.length + 3) + 1 from rfl, split_ext_offset, g3]
  rw [show s.length + 3 = (s.length + 2) + 1 from rfl, split_ext_offset, g2]
  rw [show s.length + 2 = (s.length + 1) + 1 from rfl, split_ext_offset, g1]
  rw [split_ext_offset, g0]
  split_ifs <;> first | rfl | omega

theorem split_path_ext_offset (g : Grammar) (path : Bytes) (h : path.length ≠ 0) :
    (pathL_split_path g path).ext_offset =
      split_ext_offset path (pathL_split_path g path).file_offset path.length := by
  simp only [pathL_split_path, h, if_false]

theorem set_extension_txt_shape (g : Grammar) (p : Bytes) :
    (∀ e, path_set_extension g p e = p) ∨
      path_set_extension g p [116, 120, 116] =
        path_set_extension g p [] ++ [46, 116, 120, 116] := by
  by_cases h0 : p.length = 0
  · left; intro e; simp [path_set_extension, h0]
  · by_cases h1 : (pathL_split_path g p).file_offset = p.length
    · left; intro e; simp [path_set_extension, h1]
    · right
      have ht : lstring [116, 120, 116] 0 [116, 120, 116].length = [116, 120, 116] :=
        lstring_self _
      simp only [path_set_extension, h0, h1, if_false, ht]
      simp

theorem set_extension_clear_txt (g : Grammar) (s : Bytes) :
    (path_set_extension g (s ++ [46, 116, 120, 116]) [] = s ++ [46, 116, 120, 116] ∧
        path_extension g (s ++ [46, 116, 120, 116]) = none) ∨
      path_set_extension g (s ++ [46, 116, 120, 116]) [] = s := by
  have hlen : (s ++ [46, 116, 120, 116]).length = s.length + 4 := by simp
  have hne : (s ++ [46, 116, 120, 116]).length ≠ 0 := by omega
  have heo : (pathL_split_path g (s ++ [46, 116, 120, 116])).ext_offset =
      if s.length > (pathL_split_path g (s ++ [46, 116, 120, 116])).file_offset + 1
      then s.length + 1 else 0 := by
    have := split_ext_offset_txt s (pathL_split_path g (s ++ [46, 116, 120, 116])).file_offset
    rw [← this, ← hlen]
    exact split_path_ext_offset g _ hne
  by_cases hfo : s.length > (pathL_split_path g (s ++ [46, 116, 120, 116])).file_offset + 1
  · right
    rw [if_pos hfo] at heo
    have h1 : (pathL_split_path g (s ++ [46, 116, 120, 116])).file_offset ≠
        (s ++ [46, 116, 120, 116]).length := by omega
    simp only [path_set_extension, hne, h1, if_false, heo]
    simp only [List.length_nil, if_true, Nat.add_sub_cancel, ne_eq, Nat.add_one_ne_zero,
      not_false_eq_true]
    rw [lstring_zero_of_le _ _ (by omega)]
    simp
  · left
    rw [if_neg hfo] at heo
    constructor
    · unfold path_set_extension
      rw [if_neg hne]
      simp only [heo]
      split
      · rfl
      · simp only [ne_eq, not_true_eq_false, if_false, List.length_nil, if_true]
        exact lstring_self _
    · simp [path_extension, heo]

theorem is_drive_char_letter (c : Nat) (h : (65 ≤ c ∧ c ≤ 90) ∨ (97 ≤ c ∧ c ≤ 122)) :
    is_drive_char c = true := by
  rcases h with ⟨h1, h2⟩ | ⟨h1, h2⟩ <;> interval_cases c <;> rfl

/-! ## The claims -/

/-- C1 (the code at the input of the claim): on the POSIX grammar
`starts_with("/A/B/c.txt", "/a/b")` returns `false`, for every bound of at least three
iterations: the loop leaves with `result = (path_tok_len == prefix_tok_len)` when the prefix
runs out of components while the path still has one. -/
theorem starts_with_proper_prefix_is_false (fuel : Nat) :
    path_starts_with .posix (fuel + 3) (bytes "/A/B/c.txt") (bytes "/a/b") = some false := by
  rfl

/-- C2 (the code at a failing input): on the POSIX grammar `ends_with("/A/B/C.TXT", "b/c.txt")`
returns `false` for every bound on the iterations, although `b`, `c.txt` is a final segment of
the components of the path up to ASCII case: the root of the path (`/`, length 1) and the root
of the suffix (none, length 0) do not compare equal, and `path_ends_with` returns `false`
before it looks at any component. The test on the roots is the one of `path_starts_with`; in a
suffix test it makes `ends_with("/a/b", "b")` false and `ends_with("/a/b", "/b")` true. -/
theorem ends_with_rooted_path_relative_suffix (fuel : Nat) :
    path_ends_with .posix fuel (bytes "/A/B/C.TXT") (bytes "b/c.txt") = some false ∧
      path_ends_with .posix fuel (bytes "/a/b") (bytes "b") = some false ∧
      path_ends_with .posix (fuel + 2) (bytes "/a/b") (bytes "/b") = some true :=
  ⟨rfl, rfl, rfl⟩

/-- The loop of `path_ends_with` past the test on the roots: for all non-empty `path` and
`suffix` that are both relative (root length 0), if the components of `suffix` are, compared
one by one with `pathL_compare` (same length, equal up to ASCII case), a final segment of the
components of `path`, and `path` has at least one component more, then `path_ends_with`
returns `true` after at most one iteration more than `suffix` has components. Components are
listed last one first, as the backward tokenizer yields them. -/
theorem ends_with_relative_proper_suffix (g : Grammar) (path suffix : Bytes)
    (matched rest : List Bytes) (hp : path ≠ []) (hs : suffix ≠ [])
    (hpr : (pathL_root_length g path).1 = 0) (hsr : (pathL_root_length g suffix).1 = 0)
    (hcomp : components_back g path = matched ++ rest) (hrest : rest ≠ [])
    (hmatch : List.Forall₂ component_eq matched (components_back g suffix))
    (fuel : Nat) (hfuel : (components_back g suffix).length < fuel) :
    path_ends_with g fuel path suffix = some true := by
  have hp0 : path.length ≠ 0 := by simpa using hp
  have hs0 : suffix.length ≠ 0 := by simpa using hs
  unfold path_ends_with
  rw [if_neg (by simp [hp0, hs0])]
  simp only [hpr, hsr]
  have hc : pathL_compare path 0 suffix 0 = 0 := by
    simp [pathL_compare, strncasecmp_zero]
  rw [if_neg (by simp [hc])]
  unfold components_back at hcomp hmatch hfuel
  simp only [hpr, hsr] at hcomp hmatch hfuel
  exact ends_with_loop_proper g _ matched rest _ _ _ _ fuel hcomp hrest rfl
    (Nat.lt_succ_self _) hmatch hfuel

/-- The relative case at `path = "A/B/C.TXT"`, `suffix = "b/c.txt"` on the POSIX grammar: without
the leading separator the suffix test succeeds. -/
theorem ends_with_relative_proper_suffix_example :
    path_ends_with .posix 3 (bytes "A/B/C.TXT") (bytes "b/c.txt") = some true :=
  ends_with_relative_proper_suffix .posix (bytes "A/B/C.TXT") (bytes "b/c.txt")
    [bytes "C.TXT", bytes "B"] [bytes "A"] (by decide) (by decide) (by decide) (by decide)
    (by decide) (by decide)
    (List.Forall₂.cons (by unfold component_eq; decide)
      (List.Forall₂.cons (by unfold component_eq; decide) List.Forall₂.nil))
    3 (by decide)

/-- C3 (the code at a failing input): on the POSIX grammar the loop of `ends_with("a", "a")`
returns no boolean within any number of iterations. After the single component of each side
has matched, both tokenizers are exhausted, both token lengths are `0`, and the loop takes its
`continue` branch, which changes nothing, in every further iteration. -/
theorem ends_with_equal_paths_never_returns (fuel : Nat) :
    path_ends_with .posix fuel (bytes "a") (bytes "a") = none := by
  cases fuel with
  | zero => rfl
  | succ n =>
    have h : path_ends_with .posix (n + 1) (bytes "a") (bytes "a") =
        ends_with_loop .posix n ⟨[97], 0, false⟩ ⟨[97], 0, false⟩ := rfl
    rw [h]
    exact ends_with_loop_exhausted .posix n _ _ rfl rfl

/-- C4 (the code at a failing input): on the POSIX grammar `file_stem("/dir/archive.gz")` is
`"arc"`, not `"archive"`: the length pushed is `path_len - ext_offset + 1 = 15 - 13 + 1 = 3`,
the length of the extension with its period, counted from `file_offset`. -/
theorem file_stem_keeps_extension_length :
    path_file_stem .posix (bytes "/dir/archive.gz") = some (bytes "arc") := by
  decide

/-- C5 (the code at two failing inputs): on the POSIX grammar
`set_file_stem("/a/foo.txt", "bar")` is `"/a/bartxt"` (the extension is appended from
`ext_offset`, without its period), and `set_file_stem("/a/b", "x")` is `"/a/x/a/b"` (with
`ext_offset = 0` the "extension" appended is the whole path). -/
theorem set_file_stem_examples :
    path_set_file_stem .posix (bytes "/a/foo.txt") (bytes "bar") = bytes "/a/bartxt" ∧
      path_set_file_stem .posix (bytes "/a/b") (bytes "x") = bytes "/a/x/a/b" := by
  decide

/-- C6 (counterexample): on the POSIX grammar, for `p = "ab.c.d"`,
`set_extension(set_extension(p, "txt"), "")` is `"ab.c"`, whose extension is `"c"`, not nil. -/
theorem clear_extension_two_periods_counterexample :
    path_extension .posix
      (path_set_extension .posix (path_set_extension .posix (bytes "ab.c.d") (bytes "txt")) [])
      = some (bytes "c") := by
  decide

/-- C6 (amended): for every path `p` such that removing the extension of `p` leaves a path
without extension (`extension(set_extension(p, ""))` is nil),
`extension(set_extension(set_extension(p, "txt"), ""))` is nil. Both grammars. -/
theorem set_extension_then_clear (g : Grammar) (p : Bytes)
    (h : path_extension g (path_set_extension g p []) = none) :
    path_extension g (path_set_extension g (path_set_extension g p (bytes "txt")) []) = none := by
  have ht : bytes "txt" = [116, 120, 116] := by decide
  rw [ht]
  rcases set_extension_txt_shape g p with h1 | h1
  · rw [h1, h1]
    rw [h1] at h
    exact h
  · rw [h1]
    rcases set_extension_clear_txt g (path_set_extension g p []) with ⟨h2, h3⟩ | h2
    · rw [h2]; exact h3
    · rw [h2]; exact h

/-- C6 (witness): the amended statement at `p = "/a/foo.gz"` on the POSIX grammar. -/
theorem set_extension_then_clear_witness :
    path_extension .posix
      (path_set_extension .posix (path_set_extension .posix (bytes "/a/foo.gz") (bytes "txt")) [])
      = none :=
  set_extension_then_clear .posix (bytes "/a/foo.gz") (by decide)

/-- C7 (the code at a failing input): on the POSIX grammar, for `p = "ab."`,
`has_extension(p)` is `true` while `extension(p)` returns nothing: `ext_offset` is `3`, the
length of `p`, which `path_extension` tests for and `path_has_extension` does not. -/
theorem has_extension_trailing_period :
    path_has_extension .posix (bytes "ab.") = true ∧ path_extension .posix (bytes "ab.") = none := by
  decide

/-- C8 (the code at a failing input): on the POSIX grammar
`set_extension("/a/foo", ".txt")` is `"/a/foo..txt"` while `set_extension("/a/foo", "txt")` is
`"/a/foo.txt"`: a period is always added, and a leading period of `ext` is kept. -/
theorem set_extension_leading_period :
    path_set_extension .posix (bytes "/a/foo") (bytes ".txt") = bytes "/a/foo..txt" ∧
      path_set_extension .posix (bytes "/a/foo") (bytes "txt") = bytes "/a/foo.txt" := by
  decide

/-- C9 (the code at two failing inputs): on the Windows grammar the root length of
`\\server\share\x` is `14`, one less than the length `15` of `\\server\share\`, and the
root length of `\\?\UNC\server\share\x` is `20`, one less than the length `21` of
`\\?\UNC\server\share\`: both UNC loops stop at the second separator without stepping over
it. -/
theorem root_length_unc_examples :
    pathL_root_length .windows (bytes "\\\\server\\share\\x") = (14, false) ∧
      (bytes "\\\\server\\share\\").length = 15 ∧
      pathL_root_length .windows (bytes "\\\\?\\UNC\\server\\share\\x") = (20, true) ∧
      (bytes "\\\\?\\UNC\\server\\share\\").length = 21 := by
  decide

/-- C10: on the Windows grammar, for every path whose first byte is an ASCII letter and whose
second byte is `:`, the root length is `3` if a third byte exists and is `\` or `/`, and `2`
otherwise, and the verbatim flag is `false`. -/
theorem root_length_drive (path : Bytes) (hlen : 2 ≤ path.length)
    (h0 : (65 ≤ path.getD 0 0 ∧ path.getD 0 0 ≤ 90) ∨ (97 ≤ path.getD 0 0 ∧ path.getD 0 0 ≤ 122))
    (h1 : path.getD 1 0 = 58) :
    pathL_root_length .windows path =
      (if 2 < path.length ∧ (path.getD 2 0 = 92 ∨ path.getD 2 0 = 47) then 3 else 2, false) := by
  have hd := is_drive_char_letter _ h0
  have hl : decide (path.length > 1) = true := by simpa using hlen
  have hv : is_volume_sep (path.getD 1 0) = true := by rw [h1]; rfl
  unfold pathL_root_length
  simp only [hd, hl, hv, Bool.and_self, if_true]
  refine Prod.ext ?_ rfl
  show (if (decide (path.length > 2) && pathL_is_dirsep .windows (path.getD 2 0) false) = true
    then 3 else 2) = if 2 < path.length ∧ (path.getD 2 0 = 92 ∨ path.getD 2 0 = 47) then 3 else 2
  by_cases h2 : 2 < path.length
  · by_cases h3 : path.getD 2 0 = 92
    · simp [pathL_is_dirsep, STD_PATH_DIRSEP, STD_PATH_ALTDIRSEP, h2, h3]
    · by_cases h4 : path.getD 2 0 = 47
      · simp [pathL_is_dirsep, STD_PATH_DIRSEP, STD_PATH_ALTDIRSEP, h2, h4]
      · simp [pathL_is_dirsep, STD_PATH_DIRSEP, STD_PATH_ALTDIRSEP, h2, h3, h4]
  · simp [h2]

/-- C10 (witness): the statement at `C:\foo` (root length 3) and at `C:foo` (root length 2). -/
theorem root_length_drive_witness :
    pathL_root_length .windows (bytes "C:\\foo") = (3, false) ∧
      pathL_root_length .windows (bytes "C:foo") = (2, false) :=
  ⟨root_length_drive (bytes "C:\\foo") (by decide) (by decide) (by decide),
    root_length_drive (bytes "C:foo") (by decide) (by decide) (by decide)⟩

/-! ## Helper lemmas: root classification on the Windows grammar -/

theorem root_scan_first_eq (g : Grammar) (v : Bool) (l : Bytes) (k : Nat) :
    root_scan_first g v l k =
      if l.findIdx (fun c => pathL_is_dirsep g c v) < l.length
      then k + l.findIdx (fun c => pathL_is_dirsep g c v) + 1 else k + l.length := by
  induction l generalizing k with
  | nil => simp [root_scan_first]
  | cons c rest ih =>
    unfold root_scan_first
    by_cases hc : pathL_is_dirsep g c v = true
    · simp [hc, List.findIdx_cons]
    · simp only [Bool.not_eq_true] at hc
      rw [if_neg (by simp [hc]), ih, List.findIdx_cons, hc]
      simp only [cond_false, List.length_cons, Nat.add_lt_add_iff_right]
      split_ifs <;> omega

theorem str_eq4_unc_of_take (rest : Bytes) (h : rest.take 4 ≠ UNC_TAG) :
    (decide (rest.length + 4 < 8) || !str_eq4 rest UNC_TAG) = true := by
  match rest, h with
  | [], _ => rfl
  | [_], _ => rfl
  | [_, _], _ => rfl
  | [_, _, _], _ => rfl
  | a :: b :: c :: d :: tl, h =>
    simp only [List.take, UNC_TAG, ne_eq, List.cons.injEq, and_true, not_and] at h
    simp only [str_eq4, UNC_TAG, List.getD_cons_zero, List.getD_cons_succ, List.length_cons]
    by_cases ha : a = 85
    · by_cases hb : b = 78
      · by_cases hc : c = 67
        · have hd := h ha hb hc
          simp [ha, hb, hc, hd]
        · simp [hc]
      · simp [hb]
    · simp [ha]

theorem is_verbatim_of_take (path : Bytes) (h : path.take 4 ≠ VERBATIM_PREFIX) :
    pathL_is_verbatim .windows path = false := by
  match path, h with
  | [], _ => rfl
  | [_], _ => rfl
  | [_, _], _ => rfl
  | [_, _, _], _ => rfl
  | a :: b :: c :: d :: tl, h =>
    simp only [List.take, VERBATIM_PREFIX, ne_eq, List.cons.injEq, and_true, not_and] at h
    simp only [pathL_is_verbatim, str_eq4, VERBATIM_PREFIX, List.getD_cons_zero,
      List.getD_cons_succ, List.length_cons]
    by_cases ha : a = 92
    · by_cases hb : b = 92
      · by_cases hc : c = 63
        · have hd := h ha hb hc
          simp [ha, hb, hc, hd]
        · simp [hc]
      · simp [hb]
    · simp [ha]

/-! ## The claims C11 to C20 -/

/-- C11: on the Windows grammar, (1) for a path made of the prefix `\\?\` and a rest that does
not begin with `UNC\`, the root length is the index just past the first backslash at or after
offset 4, the whole length if there is none, and the verbatim flag is `true`; (2) for a path
made of the device prefix `\\.\` and such a rest, the root length is the index just past the
first backslash or forward slash at or after offset 4, the whole length if there is none, and
the verbatim flag is `false`; (3) for every path that does not begin with `\\?\` the verbatim
flag is `false`. -/
theorem root_length_verbatim_device (rest path : Bytes) (hunc : rest.take 4 ≠ UNC_TAG)
    (hnv : path.take 4 ≠ VERBATIM_PREFIX) :
    pathL_root_length .windows (VERBATIM_PREFIX ++ rest) =
        (index_past_first (fun c => c == 92) (VERBATIM_PREFIX ++ rest) 4, true) ∧
      pathL_root_length .windows (DEVICE_PREFIX ++ rest) =
        (index_past_first (fun c => c == 92 || c == 47) (DEVICE_PREFIX ++ rest) 4, false) ∧
      (pathL_root_length .windows path).2 = false := by
  have hu := str_eq4_unc_of_take rest hunc
  refine ⟨?_, ?_, ?_⟩
  · have h1 : pathL_root_length .windows (VERBATIM_PREFIX ++ rest) =
        (root_scan_first .windows true rest 4, true) := by
      have e0 : (decide ((VERBATIM_PREFIX ++ rest).length > 1)
          && is_volume_sep ((VERBATIM_PREFIX ++ rest).getD 1 0)
          && is_drive_char ((VERBATIM_PREFIX ++ rest).getD 0 0)) = false := by
        simp [VERBATIM_PREFIX, is_volume_sep]
      have e1 : pathL_is_verbatim .windows (VERBATIM_PREFIX ++ rest) = true := by
        simp [pathL_is_verbatim, VERBATIM_PREFIX, str_eq4]
      have e2 : (decide ((VERBATIM_PREFIX ++ rest).length < 8) || !str_eq4 rest UNC_TAG) = true := by
        have e4 : (VERBATIM_PREFIX ++ rest).length = rest.length + 4 := by
          simp only [VERBATIM_PREFIX, List.length_append, List.length_cons, List.length_nil]
          omega
        rw [e4]; exact hu
      have e3 : (VERBATIM_PREFIX ++ rest).drop 4 = rest := rfl
      unfold pathL_root_length
      simp only [e0, e1, e2, e3, Bool.false_eq_true, if_false, Bool.true_or, if_true]
    rw [h1, root_scan_first_eq]
    simp only [index_past_first, VERBATIM_PREFIX, List.cons_append, List.nil_append,
      List.drop_succ_cons, List.drop_zero, List.length_cons]
    have hf : (fun c => pathL_is_dirsep .windows c true) = (fun c => c == 92) := by
      funext c; simp [pathL_is_dirsep, STD_PATH_DIRSEP]
    rw [hf]
    refine Prod.ext ?_ rfl
    simp only
    split_ifs <;> omega
  · have h1 : pathL_root_length .windows (DEVICE_PREFIX ++ rest) =
        (root_scan_first .windows false rest 4, false) := by
      have e0 : (decide ((DEVICE_PREFIX ++ rest).length > 1)
          && is_volume_sep ((DEVICE_PREFIX ++ rest).getD 1 0)
          && is_drive_char ((DEVICE_PREFIX ++ rest).getD 0 0)) = false := by
        simp [DEVICE_PREFIX, is_volume_sep]
      have e1 : pathL_is_verbatim .windows (DEVICE_PREFIX ++ rest) = false := by
        simp [pathL_is_verbatim, DEVICE_PREFIX, VERBATIM_PREFIX, str_eq4]
      have e1d : is_device (DEVICE_PREFIX ++ rest) = true := by
        simp [is_device, DEVICE_PREFIX, str_eq4]
      have e2 : (decide ((DEVICE_PREFIX ++ rest).length < 8) || !str_eq4 rest UNC_TAG) = true := by
        have e4 : (DEVICE_PREFIX ++ rest).length = rest.length + 4 := by
          simp only [DEVICE_PREFIX, List.length_append, List.length_cons, List.length_nil]
          omega
        rw [e4]; exact hu
      have e3 : (DEVICE_PREFIX ++ rest).drop 4 = rest := rfl
      unfold pathL_root_length
      simp only [e0, e1, e1d, e2, e3, Bool.false_eq_true, if_false, Bool.false_or, if_true]
    rw [h1, root_scan_first_eq]
    simp only [index_past_first, DEVICE_PREFIX, List.cons_append, List.nil_append,
      List.drop_succ_cons, List.drop_zero, List.length_cons]
    have hf : (fun c => pathL_is_dirsep .windows c false) = (fun c => c == 92 || c == 47) := by
      funext c; simp [pathL_is_dirsep, STD_PATH_DIRSEP, STD_PATH_ALTDIRSEP]
    rw [hf]
    refine Prod.ext ?_ rfl
    simp only
    split_ifs <;> omega
  · have hv := is_verbatim_of_take path hnv
    unfold pathL_root_length
    simp only [hv]
    split_ifs <;> rfl

/-- C11 (witness): the statement at `\\?\C:\x` (root length 7, verbatim), at `\\.\C:/x` (root
length 7, not verbatim) and at `\\server\share` (not verbatim). -/
theorem root_length_verbatim_device_witness :
    pathL_root_length .windows (bytes "\\\\?\\C:\\x") = (7, true) ∧
      pathL_root_length .windows (bytes "\\\\.\\C:/x") = (7, false) ∧
      (pathL_root_length .windows (bytes "\\\\server\\share")).2 = false :=
  root_length_verbatim_device (bytes "C:\\x") (bytes "\\\\server\\share") (by decide) (by decide)

/-- C13: for every path `p` for which `parent(p)` and `file_name(p)` both return a value,
`split(p)` returns exactly two values, `parent(p)` and `file_name(p)` in that order (such a
path is not empty). Both grammars. -/
theorem split_eq_parent_file_name (g : Grammar) (p a b : Bytes)
    (ha : path_parent g p = some a) (hb : path_file_name g p = some b) :
    path_split g p = [some a, some b] := by
  unfold path_parent at ha
  unfold path_file_name at hb
  unfold path_split
  by_cases h0 : p.length = 0
  · simp [pathL_split_path, h0] at ha
  · simp only [h0, if_false]
    simp only at ha hb
    split at ha
    · simp at ha
    · rename_i h1
      simp only [not_or] at h1
      simp only [Option.some.injEq] at ha
      split at hb
      · simp at hb
      · rename_i h2
        have hd : (pathL_split_path g p).dir_len > 0 := Nat.pos_of_ne_zero h1.2
        simp only [hd, if_true, h2, if_false, ha]
        split at hb
        · rename_i h3
          simp only [Option.some.injEq] at hb
          subst hb
          simp only [h3, Nat.sub_zero, lstring_self]
        · simp only [Option.some.injEq] at hb
          simp only [hb]

/-- C13 (witness): the statement at `p = "/a/b"` on the POSIX grammar. -/
theorem split_eq_parent_file_name_witness :
    path_split .posix (bytes "/a/b") = [some (bytes "/a"), some (bytes "b")] :=
  split_eq_parent_file_name .posix (bytes "/a/b") (bytes "/a") (bytes "b") (by decide)
    (by decide)

/-- C20 (the code at the failing input): on either grammar `pathL_checklpath` accepts the
zero-length string; `root("")` returns the empty string, `set_root("", "/x")` returns `"/x"`
and, on the POSIX grammar with the working directory `/home/u`, `full_path("")` returns
`"/home/u/"`, none of them raising an argument error; the sibling `pathL_optlpath` refuses the
same string with "empty path". -/
theorem checklpath_accepts_empty :
    pathL_checklpath .posix [] = .ok [] ∧ pathL_checklpath .windows [] = .ok [] ∧
      path_root .posix [] = .ok (some []) ∧ path_root .windows [] = .ok (some []) ∧
      path_set_root .posix [] (bytes "/x") = .ok (bytes "/x") ∧
      path_full_path (some (bytes "/home/u")) [] none = .ok (some (bytes "/home/u/")) ∧
      pathL_optlpath .posix (some []) = .error "empty path" := by
  refine ⟨rfl, rfl, rfl, rfl, rfl, ?_, rfl⟩
  have h : pathL_full_path (some (bytes "/home/u")) [] = some (bytes "/home/u/") := by decide
  show Except.ok (pathL_full_path (some (bytes "/home/u")) []) = _
  rw [h]

/-! ## Helper lemmas: the normalizer -/

theorem dirsep_posix_iff (c : Nat) (v : Bool) : pathL_is_dirsep .posix c v = true ↔ c = 47 := by
  simp [pathL_is_dirsep, STD_PATH_DIRSEP]

theorem normalize_unix_loop_sep (s : Bool) (rest : Bytes) :
    normalize_unix_loop s (47 :: rest) =
      if s then normalize_unix_loop true rest else 47 :: normalize_unix_loop true rest := by
  cases s <;> simp [normalize_unix_loop, pathL_is_dirsep, STD_PATH_DIRSEP]

theorem normalize_unix_loop_not_sep (s : Bool) (c : Nat) (rest : Bytes) (h : c ≠ 47) :
    normalize_unix_loop s (c :: rest) = c :: normalize_unix_loop false rest := by
  simp [normalize_unix_loop, pathL_is_dirsep, STD_PATH_DIRSEP, h]

/-- The loop of the POSIX normalizer computes the collapse of separator runs. -/
theorem normalize_unix_loop_eq (l : Bytes) :
    normalize_unix_loop false l = collapse_separator_runs l ∧
      normalize_unix_loop true l =
        collapse_separator_runs (l.dropWhile (fun d => d == 47)) := by
  induction l with
  | nil => simp [normalize_unix_loop, collapse_separator_runs]
  | cons c rest ih =>
    by_cases hc : c = 47
    · subst hc
      constructor
      · rw [normalize_unix_loop_sep, collapse_separator_runs]
        simp [ih.2]
      · rw [normalize_unix_loop_sep]
        simp [ih.2, List.dropWhile]
    · constructor
      · rw [normalize_unix_loop_not_sep _ _ _ hc, collapse_separator_runs]
        simp [hc, ih.1]
      · rw [normalize_unix_loop_not_sep _ _ _ hc]
        have hb : (c == 47) = false := beq_false_of_ne hc
        have : (c :: rest).dropWhile (fun d => d == 47) = c :: rest := by
          simp [List.dropWhile, hb]
        rw [this, collapse_separator_runs]
        simp [hc, ih.1]

theorem is_normalized_unix_cons_not_sep (c : Nat) (l : Bytes) (h : c ≠ 47) :
    is_normalized_unix_loop (c :: l) = is_normalized_unix_loop l := by
  cases l with
  | nil => rfl
  | cons b rest =>
    rw [is_normalized_unix_loop]
    simp [pathL_is_dirsep, STD_PATH_DIRSEP, h]

/-- A path without two adjacent separators is left unchanged by the POSIX loop. -/
theorem normalize_unix_loop_of_normalized (l : Bytes) (h : is_normalized_unix_loop l = true) :
    normalize_unix_loop false l = l := by
  induction l with
  | nil => rfl
  | cons a rest ih =>
    by_cases ha : a = 47
    · subst ha
      rw [normalize_unix_loop_sep]
      simp only [Bool.false_eq_true, if_false, List.cons.injEq, true_and]
      cases rest with
      | nil => rfl
      | cons b rest2 =>
        rw [is_normalized_unix_loop] at h
        simp only [pathL_is_dirsep, STD_PATH_DIRSEP, beq_self_eq_true, Bool.and_true,
          beq_iff_eq] at h
        by_cases hb : b = 47
        · simp [hb] at h
        · simp only [hb, if_false] at h
          have := ih h
          rw [normalize_unix_loop_not_sep _ _ _ hb] at this ⊢
          exact this
    · rw [normalize_unix_loop_not_sep _ _ _ ha]
      rw [is_normalized_unix_cons_not_sep _ _ ha] at h
      rw [ih h]

/-- The output of the POSIX loop has no two adjacent separators. -/
theorem is_normalized_normalize_unix_loop (l : Bytes) :
    is_normalized_unix_loop (normalize_unix_loop false l) = true ∧
      is_normalized_unix_loop (47 :: normalize_unix_loop true l) = true := by
  induction l with
  | nil => simp [normalize_unix_loop, is_normalized_unix_loop]
  | cons c rest ih =>
    by_cases hc : c = 47
    · subst hc
      rw [normalize_unix_loop_sep, normalize_unix_loop_sep]
      simp only [Bool.false_eq_true, if_false, if_true]
      exact ⟨ih.2, ih.2⟩
    · rw [normalize_unix_loop_not_sep _ _ _ hc, normalize_unix_loop_not_sep _ _ _ hc]
      refine ⟨?_, ?_⟩
      · rw [is_normalized_unix_cons_not_sep _ _ hc]; exact ih.1
      · rw [is_normalized_unix_loop]
        simp only [pathL_is_dirsep, STD_PATH_DIRSEP, beq_self_eq_true, Bool.and_true,
          beq_iff_eq, hc, if_false]
        rw [is_normalized_unix_cons_not_sep _ _ hc]; exact ih.1

theorem normalize_win_loop_sep (s : Bool) (c : Nat) (rest : Bytes)
    (h : pathL_is_dirsep .windows c false = true) :
    normalize_win_loop s (c :: rest) =
      if s then normalize_win_loop true rest else 92 :: normalize_win_loop true rest := by
  cases s <;> simp [normalize_win_loop, h, STD_PATH_DIRSEP]

theorem normalize_win_loop_not_sep (s : Bool) (c : Nat) (rest : Bytes)
    (h : pathL_is_dirsep .windows c false = false) :
    normalize_win_loop s (c :: rest) = c :: normalize_win_loop false rest := by
  simp [normalize_win_loop, h]

theorem dirsep_windows_92 : pathL_is_dirsep .windows 92 false = true := by decide

/-- The loop of the Windows normalizer leaves its own output unchanged. -/
theorem normalize_win_loop_idem (l : Bytes) :
    normalize_win_loop false (normalize_win_loop false l) = normalize_win_loop false l ∧
      normalize_win_loop false (normalize_win_loop true l) = normalize_win_loop true l ∧
      normalize_win_loop true (normalize_win_loop true l) = normalize_win_loop true l := by
  induction l with
  | nil => simp [normalize_win_loop]
  | cons c rest ih =>
    obtain ⟨iha, ihb, ihc⟩ := ih
    by_cases hc : pathL_is_dirsep .windows c false = true
    · rw [normalize_win_loop_sep _ _ _ hc, normalize_win_loop_sep _ _ _ hc]
      simp only [Bool.false_eq_true, if_false, if_true]
      refine ⟨?_, ihb, ihc⟩
      rw [normalize_win_loop_sep _ _ _ dirsep_windows_92]
      simp only [Bool.false_eq_true, if_false, ihc]
    · simp only [Bool.not_eq_true] at hc
      have e : ∀ (s : Bool) (X : Bytes),
          normalize_win_loop s (c :: X) = c :: normalize_win_loop false X :=
        fun s X => normalize_win_loop_not_sep s c X hc
      simp only [e, iha, and_self]

/-- The rewriting pass of the Windows grammar leaves its own output unchanged. -/
theorem pathL_normalize_windows_idem (p : Bytes) :
    pathL_normalize .windows (pathL_normalize .windows p) = pathL_normalize .windows p := by
  cases p with
  | nil => decide
  | cons c rest =>
    by_cases hc : pathL_is_dirsep .windows c false = true
    · have h1 : pathL_normalize .windows (c :: rest) = 92 :: normalize_win_loop false rest := by
        simp [pathL_normalize, hc, STD_PATH_DIRSEP]
      rw [h1]
      simp only [pathL_normalize, List.getD_cons_zero, dirsep_windows_92, if_true,
        List.drop_succ_cons, List.drop_zero, (normalize_win_loop_idem rest).1, STD_PATH_DIRSEP]
    · simp only [Bool.not_eq_true] at hc
      have h1 : pathL_normalize .windows (c :: rest) = c :: normalize_win_loop false rest := by
        simp [pathL_normalize, hc, normalize_win_loop_not_sep _ _ _ hc]
      rw [h1]
      simp only [pathL_normalize, List.getD_cons_zero, hc, Bool.false_eq_true, if_false,
        normalize_win_loop_not_sep _ _ _ hc, (normalize_win_loop_idem rest).1]

/-- C15: on the POSIX grammar, for every path `p`, `normalize(p)` is `p` with every maximal
run of one or more separators replaced by a single separator and every other byte passed
through unchanged and in order; in particular `normalize("a//b///c") = "a/b/c"`. -/
theorem normalize_posix_collapses (p : Bytes) :
    path_normalize .posix p = collapse_separator_runs p ∧
      path_normalize .posix (bytes "a//b///c") = bytes "a/b/c" := by
  refine ⟨?_, by decide⟩
  unfold path_normalize pathL_normalize
  by_cases h : pathL_is_normalized .posix p = true
  · simp only [h, if_true]
    rw [← (normalize_unix_loop_eq p).1]
    exact (normalize_unix_loop_of_normalized p h).symm
  · simp only [h, if_false]
    exact (normalize_unix_loop_eq p).1

/-- C16: on either grammar, for every path `p`, `normalize(normalize(p)) = normalize(p)`, and
on the POSIX grammar `is_normalized(normalize(p))` holds. -/
theorem normalize_idempotent (g : Grammar) (p : Bytes) :
    path_normalize g (path_normalize g p) = path_normalize g p ∧
      pathL_is_normalized .posix (path_normalize .posix p) = true := by
  have hposix : pathL_is_normalized .posix (path_normalize .posix p) = true := by
    unfold path_normalize pathL_normalize
    by_cases h : pathL_is_normalized .posix p = true
    · simp only [h, if_true]
    · simp only [h, if_false]
      exact (is_normalized_normalize_unix_loop p).1
  refine ⟨?_, hposix⟩
  by_cases h : pathL_is_normalized g p = true
  · have hq : path_normalize g p = p := by simp [path_normalize, h]
    rw [hq, hq]
  · cases g with
    | posix =>
      have := hposix
      generalize path_normalize .posix p = q at this ⊢
      simp [path_normalize, this]
    | windows =>
      have hq : path_normalize .windows p = pathL_normalize .windows p := by
        simp [path_normalize, h]
      rw [hq]
      unfold path_normalize
      split
      · rfl
      · exact pathL_normalize_windows_idem p

/-- C17 (the code at a failing input): on the Windows grammar `C:\a/b` is not verbatim and
`normalize` returns it unchanged, with its `/`. `pathL_is_normalized` reports it as normalized
because its loop runs `path_len - root_len = 3` times but reads from the start of the string
(`C`, `:`, `\`), never reaching the `/`; the rewriting pass `pathL_normalize`, which is skipped,
would give `C:\a\b`. -/
theorem normalize_windows_keeps_slash :
    pathL_is_verbatim .windows (bytes "C:\\a/b") = false ∧
      pathL_is_normalized .windows (bytes "C:\\a/b") = true ∧
      path_normalize .windows (bytes "C:\\a/b") = bytes "C:\\a/b" ∧
      47 ∈ path_normalize .windows (bytes "C:\\a/b") ∧
      pathL_normalize .windows (bytes "C:\\a/b") = bytes "C:\\a\\b" := by
  decide

/-! ## Helper lemmas: combine -/

theorem last_index_of_cons_some (p : Bytes → Bool) (f : Bytes) (rest : List Bytes) (j : Nat)
    (h : last_index_of p rest = some j) : last_index_of p (f :: rest) = some (j + 1) := by
  rw [last_index_of, h]

theorem last_index_of_cons_none (p : Bytes → Bool) (f : Bytes) (rest : List Bytes)
    (h : last_index_of p rest = none) :
    last_index_of p (f :: rest) = if p f then some 0 else none := by
  rw [last_index_of, h]

theorem last_index_of_none (p : Bytes → Bool) (l : List Bytes) (h : last_index_of p l = none) :
    l.filter p = [] := by
  induction l with
  | nil => rfl
  | cons f rest ih =>
    cases h1 : last_index_of p rest with
    | some j => rw [last_index_of_cons_some p f rest j h1] at h; simp at h
    | none =>
      rw [last_index_of_cons_none p f rest h1] at h
      by_cases hp : p f = true
      · simp [hp] at h
      · simp only [Bool.not_eq_true] at hp
        simp [List.filter, hp, ih h1]

theorem last_index_of_some (p : Bytes → Bool) (l : List Bytes) (j : Nat)
    (h : last_index_of p l = some j) : l.filter p ≠ [] := by
  induction l generalizing j with
  | nil => simp [last_index_of] at h
  | cons f rest ih =>
    cases h1 : last_index_of p rest with
    | some j1 =>
      have := ih j1 h1
      by_cases hp : p f = true
      · simp [List.filter, hp]
      · simp only [Bool.not_eq_true] at hp
        simpa [List.filter, hp] using this
    | none =>
      rw [last_index_of_cons_none p f rest h1] at h
      by_cases hp : p f = true
      · simp [List.filter, hp]
      · simp [hp] at h

theorem last_index_of_drop (p : Bytes → Bool) (k : Nat) :
    ∀ (l : List Bytes) (L : Nat), last_index_of p l = some L → k ≤ L →
      last_index_of p (l.drop k) = some (L - k) := by
  induction k with
  | zero => intro l L h _; simpa using h
  | succ k ih =>
    intro l L h hk
    cases l with
    | nil => simp [last_index_of] at h
    | cons f rest =>
      cases h1 : last_index_of p rest with
      | some j =>
        rw [last_index_of_cons_some p f rest j h1] at h
        simp only [Option.some.injEq] at h
        subst h
        have := ih rest j h1 (by omega)
        simpa using this
      | none =>
        rw [last_index_of_cons_none p f rest h1] at h
        by_cases hp : p f = true
        · simp only [hp, if_true, Option.some.injEq] at h; omega
        · simp [hp] at h

theorem last_index_of_le (p q : Bytes → Bool) (hpq : ∀ f, p f = true → q f = true)
    (l : List Bytes) (k : Nat) (h : last_index_of p l = some k) :
    ∃ L, last_index_of q l = some L ∧ k ≤ L := by
  induction l generalizing k with
  | nil => simp [last_index_of] at h
  | cons f rest ih =>
    cases h1 : last_index_of p rest with
    | some j =>
      rw [last_index_of_cons_some p f rest j h1] at h
      simp only [Option.some.injEq] at h
      obtain ⟨L, hL, hle⟩ := ih j h1
      exact ⟨L + 1, last_index_of_cons_some q f rest L hL, by omega⟩
    | none =>
      rw [last_index_of_cons_none p f rest h1] at h
      by_cases hp : p f = true
      · simp only [hp, if_true, Option.some.injEq] at h
        cases h2 : last_index_of q rest with
        | some j2 => exact ⟨j2 + 1, last_index_of_cons_some q f rest j2 h2, by omega⟩
        | none =>
          refine ⟨0, ?_, by omega⟩
          rw [last_index_of_cons_none q f rest h2, if_pos (hpq f hp)]
      · simp [hp] at h

theorem fragment_nonempty_iff (f : Bytes) : fragment_nonempty f = true ↔ f ≠ [] := by
  simp [fragment_nonempty]

theorem fragment_nonempty_nil : fragment_nonempty [] = false := rfl

theorem ends_with_sep_iff (f : Bytes) (h : f ≠ []) :
    pathL_is_dirsep .posix (f.getD (f.length - 1) 0) false = true ↔ f.getLast? = some 47 := by
  rw [dirsep_posix_iff, List.getLast?_eq_getElem?, List.getD_eq_getElem?_getD]
  have hlt : f.length - 1 < f.length := by
    have := List.length_pos.mpr h
    omega
  rw [List.getElem?_eq_getElem hlt]
  simp

theorem combine_emit_past (g : Grammar) (last : Nat) (l : List arg_t) (i : Nat)
    (h : last < i) : combine_emit g last l i = [] := by
  cases l with
  | nil => rfl
  | cons a rest =>
    unfold combine_emit
    rw [if_neg (by omega)]

theorem filter_nonempty_cons (f : Bytes) (rest : List Bytes) :
    (f :: rest).filter fragment_nonempty =
      if fragment_nonempty f then f :: rest.filter fragment_nonempty
      else rest.filter fragment_nonempty := by
  cases h : fragment_nonempty f <;> simp [List.filter, h]

/-- The second loop of `combine` computes the join of the non-empty fragments. -/
theorem combine_emit_eq (l : List Bytes) :
    ∀ (i j : Nat), last_index_of fragment_nonempty l = some j →
      combine_emit .posix (i + j) (l.map combine_arg) i =
        join_fragments (l.filter fragment_nonempty) := by
  induction l with
  | nil => intro i j h; simp [last_index_of] at h
  | cons f rest ih =>
    intro i j h
    simp only [List.map_cons]
    unfold combine_emit
    rw [if_pos (by omega), filter_nonempty_cons]
    cases h1 : last_index_of fragment_nonempty rest with
    | some j1 =>
      rw [last_index_of_cons_some _ f rest j1 h1] at h
      simp only [Option.some.injEq] at h
      subst h
      have hrec := ih (i + 1) j1 h1
      have hidx : i + 1 + j1 = i + (j1 + 1) := by omega
      rw [hidx] at hrec
      rw [hrec]
      have hne := last_index_of_some _ rest j1 h1
      cases hd : fragment_nonempty f with
      | false =>
        have hf : f = [] := by
          by_contra hc
          rw [(fragment_nonempty_iff f).mpr hc] at hd
          exact Bool.noConfusion hd
        subst hf
        simp [combine_arg]
      | true =>
        have hf : f ≠ [] := (fragment_nonempty_iff f).mp hd
        have hfl : f.length ≠ 0 := by simpa using hf
        obtain ⟨x, xs, hx⟩ := List.exists_cons_of_ne_nil hne
        rw [if_pos rfl, hx, join_fragments]
        have harg : combine_arg f =
            ⟨f, f.length, pathL_is_dirsep .posix (f.getD (f.length - 1) 0) false⟩ := by
          rw [combine_arg, hd, Bool.true_and]
        have hi : decide (i ≠ i + (j1 + 1)) = true := decide_eq_true (by omega)
        rw [harg]
        simp only [hfl, if_false, hi, Bool.true_and, STD_PATH_DIRSEP]
        by_cases he : pathL_is_dirsep .posix (f.getD (f.length - 1) 0) false = true
        · rw [he, if_pos ((ends_with_sep_iff f hf).mp he)]
          rfl
        · have hn : ¬ f.getLast? = some 47 := fun h => he ((ends_with_sep_iff f hf).mpr h)
          rw [Bool.not_eq_true] at he
          rw [he, if_neg hn]
          rfl
    | none =>
      rw [last_index_of_cons_none _ f rest h1] at h
      cases hd : fragment_nonempty f with
      | false => rw [hd] at h; simp at h
      | true =>
        rw [hd] at h
        simp only [if_true, Option.some.injEq] at h
        subst h
        have hf : f ≠ [] := (fragment_nonempty_iff f).mp hd
        have hfl : f.length ≠ 0 := by simpa using hf
        rw [combine_emit_past _ _ _ _ (by omega)]
        rw [if_pos rfl, last_index_of_none _ rest h1, join_fragments]
        have hi : decide (i ≠ i + 0) = false := decide_eq_false (by omega)
        simp only [combine_arg, hfl, if_false, hi, Bool.false_and, Bool.false_eq_true,
          List.append_nil]

/-- The first loop of `combine` on the POSIX grammar: what it leaves in `args`, `first`,
`last` and `len`. -/
theorem combine_scan_posix (rest : List Bytes) :
    ∀ (i : Nat) (st : combine_scan_t), st.has_verbatim_root = false →
      (combine_scan .posix rest i st).args = st.args ++ rest.map combine_arg ∧
      (combine_scan .posix rest i st).first =
        ((last_index_of fragment_rooted rest).map (fun j => i + j)).getD st.first ∧
      (combine_scan .posix rest i st).last =
        ((last_index_of fragment_nonempty rest).map (fun j => i + j)).getD st.last ∧
      (last_index_of fragment_nonempty rest = none →
        (combine_scan .posix rest i st).len = st.len) ∧
      (last_index_of fragment_nonempty rest ≠ none →
        (combine_scan .posix rest i st).len > 0) := by
  induction rest with
  | nil => intro i st _; simp [combine_scan, last_index_of]
  | cons f rest ih =>
    intro i st hv
    cases hd : fragment_nonempty f with
    | false =>
      have hf : f = [] := by
        by_contra hc
        rw [(fragment_nonempty_iff f).mpr hc] at hd
        exact Bool.noConfusion hd
      subst hf
      have hr0 : fragment_rooted [] = false := rfl
      have hs : combine_scan .posix ([] :: rest) i st =
          combine_scan .posix rest (i + 1) { st with args := st.args ++ [⟨[], 0, false⟩] } := by
        simp [combine_scan]
      obtain ⟨h1, h2, h3, h4, h5⟩ := ih (i + 1) { st with args := st.args ++ [⟨[], 0, false⟩] } hv
      rw [hs]
      refine ⟨?_, ?_, ?_, ?_, ?_⟩
      · rw [h1]; simp [combine_arg, fragment_nonempty]
      · rw [h2]
        cases hr : last_index_of fragment_rooted rest with
        | some j =>
          rw [last_index_of_cons_some _ _ _ _ hr]
          simp only [Option.map_some', Option.getD_some]
          omega
        | none =>
          rw [last_index_of_cons_none _ _ _ hr, hr0]
          simp
      · rw [h3]
        cases hr : last_index_of fragment_nonempty rest with
        | some j =>
          rw [last_index_of_cons_some _ _ _ _ hr]
          simp only [Option.map_some', Option.getD_some]
          omega
        | none =>
          rw [last_index_of_cons_none _ _ _ hr, hd]
          simp
      · intro hn
        cases hr : last_index_of fragment_nonempty rest with
        | some j => rw [last_index_of_cons_some _ _ _ _ hr] at hn; simp at hn
        | none => simpa using h4 hr
      · intro hn
        cases hr : last_index_of fragment_nonempty rest with
        | some j => exact h5 (by simp [hr])
        | none => rw [last_index_of_cons_none _ _ _ hr, hd] at hn; simp at hn
    | true =>
      have hf : f ≠ [] := (fragment_nonempty_iff f).mp hd
      have hfl : f.length ≠ 0 := by simpa using hf
      have hroot2 : (pathL_root_length .posix f).2 = false := rfl
      have hs : combine_scan .posix (f :: rest) i st =
          combine_scan .posix rest (i + 1)
            { has_verbatim_root := false
              len := (if (pathL_root_length .posix f).1 > 0 then 0 else st.len) + f.length +
                (if pathL_is_dirsep .posix (f.getD (f.length - 1) 0) false then 1 else 0)
              first := if (pathL_root_length .posix f).1 > 0 then i else st.first
              last := i
              args := st.args ++ [combine_arg f] } := by
        rw [combine_scan]
        simp only [hfl, if_false, hv, hroot2, Bool.not_false, Bool.and_true, decide_eq_true_eq,
          ite_self, combine_arg, hd, Bool.true_and]
      rw [hs]
      obtain ⟨h1, h2, h3, h4, h5⟩ := ih (i + 1)
        { has_verbatim_root := false
          len := (if (pathL_root_length .posix f).1 > 0 then 0 else st.len) + f.length +
            (if pathL_is_dirsep .posix (f.getD (f.length - 1) 0) false then 1 else 0)
          first := if (pathL_root_length .posix f).1 > 0 then i else st.first
          last := i
          args := st.args ++ [combine_arg f] } rfl
      refine ⟨?_, ?_, ?_, ?_, ?_⟩
      · rw [h1]; simp
      · rw [h2]
        cases hr : last_index_of fragment_rooted rest with
        | some j =>
          rw [last_index_of_cons_some _ _ _ _ hr]
          simp only [Option.map_some', Option.getD_some]
          omega
        | none =>
          rw [last_index_of_cons_none _ _ _ hr]
          by_cases hrt : (pathL_root_length .posix f).1 > 0
          · simp [hrt, fragment_rooted, hd, pathL_is_rooted]
          · simp [hrt, fragment_rooted, hd, pathL_is_rooted]
      · rw [h3]
        cases hr : last_index_of fragment_nonempty rest with
        | some j =>
          rw [last_index_of_cons_some _ _ _ _ hr]
          simp only [Option.map_some', Option.getD_some]
          omega
        | none =>
          rw [last_index_of_cons_none _ _ _ hr, hd]
          simp
      · intro hn
        cases hr : last_index_of fragment_nonempty rest with
        | some j => rw [last_index_of_cons_some _ _ _ _ hr] at hn; simp at hn
        | none => rw [last_index_of_cons_none _ _ _ hr, hd] at hn; simp at hn
      · intro _
        have hpos : 0 < f.length := Nat.pos_of_ne_zero hfl
        cases hr : last_index_of fragment_nonempty rest with
        | some j => exact h5 (by simp [hr])
        | none =>
          rw [h4 hr]
          simp only [gt_iff_lt]
          omega

/-- C14: on the POSIX grammar, for every non-empty list of fragments, `combine` returns the
windowed join: with `k` the index of the last non-empty rooted fragment (the first fragment if
none is rooted), the concatenation in order of the non-empty fragments from index `k` on, one
separator being inserted after each of them except the last exactly when it does not already
end with a separator; the empty string if every fragment is empty. -/
theorem combine_eq_windowed_join (fragments : List Bytes) (h : fragments ≠ []) :
    path_combine .posix fragments = some (windowed_join fragments) := by
  have hlen : fragments.length ≠ 0 := by simpa using h
  obtain ⟨h1, h2, h3, h4, h5⟩ := combine_scan_posix fragments 0 ⟨false, 0, 0, 0, []⟩ rfl
  unfold path_combine windowed_join
  simp only [hlen, if_false]
  cases hne : last_index_of fragment_nonempty fragments with
  | none =>
    have hl := h4 hne
    simp only at hl
    rw [if_pos hl]
    have hall := last_index_of_none _ fragments hne
    have hsub : ((fragments.drop ((last_index_of fragment_rooted fragments).getD 0)).filter
        fragment_nonempty) = [] := by
      have hs := (List.drop_sublist ((last_index_of fragment_rooted fragments).getD 0)
        fragments).filter fragment_nonempty
      rw [hall] at hs
      exact List.eq_nil_of_sublist_nil hs
    rw [hsub]
    rfl
  | some L =>
    have hl := h5 (by simp [hne])
    rw [if_neg (by omega)]
    simp only [List.nil_append, hne, Option.map_some', Option.getD_some, Nat.zero_add] at h1 h3
    have hk : (combine_scan .posix fragments 0 ⟨false, 0, 0, 0, []⟩).first =
        (last_index_of fragment_rooted fragments).getD 0 := by
      rw [h2]
      cases last_index_of fragment_rooted fragments <;> simp
    rw [h1, h3, hk, ← List.map_drop]
    have hkL : (last_index_of fragment_rooted fragments).getD 0 ≤ L := by
      cases hr : last_index_of fragment_rooted fragments with
      | none => simp
      | some k =>
        obtain ⟨L2, hL2, hle⟩ := last_index_of_le _ fragment_nonempty
          (fun f hf => by
            simp only [fragment_rooted, Bool.and_eq_true] at hf; exact hf.1) fragments k hr
        rw [hne] at hL2
        simp only [Option.some.injEq] at hL2
        simp only [Option.getD_some]
        omega
    have hd := last_index_of_drop _ _ fragments L hne hkL
    have he := combine_emit_eq _ ((last_index_of fragment_rooted fragments).getD 0) _ hd
    rw [Nat.add_sub_cancel' hkL] at he
    rw [he]

/-- C14 (witness): `combine("x", "/y", "z") = "/y/z"` on the POSIX grammar. -/
theorem combine_eq_windowed_join_witness :
    path_combine .posix [bytes "x", bytes "/y", bytes "z"] = some (bytes "/y/z") :=
  combine_eq_windowed_join [bytes "x", bytes "/y", bytes "z"] (by decide)

/-! ## Helper lemmas: the full-path resolver -/

theorem is_dirsep_47 (v : Bool) : pathL_is_dirsep .posix 47 v = true := by
  simp [pathL_is_dirsep, STD_PATH_DIRSEP]

theorem is_dirsep_ne (c : Nat) (v : Bool) (h : c ≠ 47) : pathL_is_dirsep .posix c v = false := by
  simp [pathL_is_dirsep, STD_PATH_DIRSEP, h]

/-- One more iteration than there are bytes left changes nothing. -/
theorem full_path_loop_succ (rl sk : Nat) (fuel : Nat) :
    ∀ (p tmp : Bytes), p.length ≤ fuel →
      full_path_loop rl sk (fuel + 1) p tmp = full_path_loop rl sk fuel p tmp := by
  induction fuel with
  | zero =>
    intro p tmp h
    have hp : p = [] := List.eq_nil_of_length_eq_zero (by omega)
    subst hp
    simp [full_path_loop]
  | succ fuel ih =>
    intro p tmp h
    have h1 : (p.drop 1).length ≤ fuel := by simp only [List.length_drop]; omega
    have h2 : (p.drop 2).length ≤ fuel := by simp only [List.length_drop]; omega
    have h3 : (p.drop 3).length ≤ fuel := by simp only [List.length_drop]; omega
    conv_lhs => unfold full_path_loop
    conv_rhs => unfold full_path_loop
    simp only [ih _ _ h1, ih _ _ h2, ih _ _ h3]

theorem full_path_loop_ge (rl sk : Nat) (p tmp : Bytes) (k : Nat) :
    full_path_loop rl sk (p.length + k) p tmp = full_path_run rl sk p tmp := by
  induction k with
  | zero => rfl
  | succ k ih =>
    rw [← ih, ← Nat.add_assoc]
    exact full_path_loop_succ rl sk _ p tmp (by omega)

theorem full_path_loop_of_le (rl sk : Nat) (p tmp : Bytes) (fuel : Nat) (h : p.length ≤ fuel) :
    full_path_loop rl sk fuel p tmp = full_path_run rl sk p tmp := by
  obtain ⟨k, rfl⟩ := Nat.exists_eq_add_of_le h
  exact full_path_loop_ge rl sk p tmp k

theorem full_path_run_nil (rl sk : Nat) (tmp : Bytes) : full_path_run rl sk [] tmp = tmp := rfl

theorem full_path_run_not_sep (rl sk : Nat) (c : Nat) (r tmp : Bytes) (h : c ≠ 47) :
    full_path_run rl sk (c :: r) tmp = full_path_run rl sk r (tmp ++ [c]) := by
  unfold full_path_run
  rw [List.length_cons, full_path_loop]
  simp [is_dirsep_ne c false h]

theorem full_path_run_last_sep (rl sk : Nat) (tmp : Bytes) :
    full_path_run rl sk [47] tmp = tmp ++ [47] := by
  simp [full_path_run, full_path_loop]

theorem full_path_run_sep_sep (rl sk : Nat) (r tmp : Bytes) :
    full_path_run rl sk (47 :: 47 :: r) tmp = full_path_run rl sk (47 :: r) tmp := by
  unfold full_path_run
  rw [List.length_cons, full_path_loop]
  simp [is_dirsep_47]

theorem full_path_run_dot_end (rl sk : Nat) (tmp : Bytes) :
    full_path_run rl sk [47, 46] tmp = tmp := by
  simp [full_path_run, full_path_loop, pathL_is_dirsep, STD_PATH_DIRSEP]

theorem full_path_run_dot_sep (rl sk : Nat) (r tmp : Bytes) :
    full_path_run rl sk (47 :: 46 :: 47 :: r) tmp = full_path_run rl sk (47 :: r) tmp := by
  unfold full_path_run
  rw [List.length_cons, full_path_loop]
  simp only [List.length_cons, Nat.add_one_ne_zero, if_false, List.getD_cons_zero,
    List.getD_cons_succ, is_dirsep_47, is_dirsep_ne 46 false (by decide), Bool.true_and,
    Bool.false_eq_true, Bool.or_true, beq_self_eq_true, Bool.and_self, if_true,
    List.drop_succ_cons, List.drop_zero]
  have := full_path_loop_of_le rl sk (47 :: r) tmp (r.length + 1 + 1) (by simp)
  simpa [full_path_run] using this

theorem full_path_run_dotdot_end (rl sk : Nat) (tmp : Bytes) :
    full_path_run rl sk [47, 46, 46] tmp = full_path_rewind tmp rl sk := by
  simp [full_path_run, full_path_loop, pathL_is_dirsep, STD_PATH_DIRSEP]

theorem full_path_run_dotdot_sep (rl sk : Nat) (r tmp : Bytes) :
    full_path_run rl sk (47 :: 46 :: 46 :: 47 :: r) tmp =
      full_path_run rl sk (47 :: r) (full_path_rewind tmp rl sk) := by
  unfold full_path_run
  rw [List.length_cons, full_path_loop]
  simp only [List.length_cons, Nat.add_one_ne_zero, if_false, List.getD_cons_zero,
    List.getD_cons_succ, is_dirsep_47, is_dirsep_ne 46 false (by decide), Bool.true_and,
    Bool.false_eq_true, Bool.or_true, beq_self_eq_true, Bool.and_self, if_true,
    List.drop_succ_cons, List.drop_zero]
  have := full_path_loop_of_le rl sk (47 :: r) (full_path_rewind tmp rl sk)
    (r.length + 1 + 1 + 1) (by simp)
  simp [full_path_run] at this ⊢
  exact this

/-- A run of bytes that are not separators is copied to `tmp`. -/
theorem full_path_run_copy (rl sk : Nat) (comp : Bytes) (h : 47 ∉ comp) (rest tmp : Bytes) :
    full_path_run rl sk (comp ++ rest) tmp = full_path_run rl sk rest (tmp ++ comp) := by
  induction comp generalizing tmp with
  | nil => simp
  | cons c cs ih =>
    have hc : c ≠ 47 := fun e => h (by simp [e])
    have hcs : 47 ∉ cs := fun e => h (List.mem_cons_of_mem _ e)
    rw [List.cons_append, full_path_run_not_sep _ _ _ _ _ hc, ih hcs]
    simp

/-- A separator followed by a component other than `.` and `..` is copied to `tmp`. -/
theorem full_path_run_sep_comp (rl sk : Nat) (comp rest tmp : Bytes)
    (hne : comp ≠ []) (hs : 47 ∉ comp) (hd : comp ≠ [46]) (hdd : comp ≠ [46, 46])
    (hr : rest = [] ∨ ∃ r, rest = 47 :: r) :
    full_path_run rl sk (47 :: (comp ++ rest)) tmp =
      full_path_run rl sk (comp ++ rest) (tmp ++ [47]) := by
  unfold full_path_run
  rw [List.length_cons, full_path_loop]
  match comp, hne, hs, hd, hdd with
  | [d], _, hs, hd, _ =>
    have hd47 : d ≠ 47 := fun e => hs (by simp [e])
    have hd46 : d ≠ 46 := fun e => hd (by simp [e])
    rcases hr with rfl | ⟨r, rfl⟩ <;>
      simp [is_dirsep_47, is_dirsep_ne d false hd47, hd46]
  | [d, e], _, hs, _, hdd =>
    have hd47 : d ≠ 47 := fun h => hs (by simp [h])
    have he47 : e ≠ 47 := fun h => hs (by simp [h])
    have hde : ¬ (d = 46 ∧ e = 46) := fun h => hdd (by simp [h.1, h.2])
    rcases hr with rfl | ⟨r, rfl⟩ <;>
      simp [is_dirsep_47, is_dirsep_ne d false hd47, is_dirsep_ne e false he47] <;>
      intro h1 h2 <;> exact absurd ⟨h1, h2⟩ hde
  | d :: e :: f :: c, _, hs, _, _ =>
    have hd47 : d ≠ 47 := fun h => hs (by simp [h])
    have he47 : e ≠ 47 := fun h => hs (by simp [h])
    have hf47 : f ≠ 47 := fun h => hs (by simp [h])
    simp [is_dirsep_47, is_dirsep_ne d false hd47, is_dirsep_ne e false he47,
      is_dirsep_ne f false hf47]

theorem render_components_append (cs : List Bytes) (c : Bytes) :
    render_components (cs ++ [c]) = render_components cs ++ 47 :: c := by
  induction cs with
  | nil => simp [render_components]
  | cons d ds ih => simp [render_components, ih]

theorem render_components_append_list (cs ds : List Bytes) :
    render_components (cs ++ ds) = render_components cs ++ render_components ds := by
  induction cs with
  | nil => simp [render_components]
  | cons d rest ih => simp [render_components, ih]

theorem render_components_boundary (cs : List Bytes) (t : Bytes) (ht : t = [] ∨ t = [47]) :
    render_components cs ++ t = [] ∨ ∃ r, render_components cs ++ t = 47 :: r := by
  cases cs with
  | nil =>
    rcases ht with rfl | rfl
    · left; rfl
    · right; exact ⟨[], rfl⟩
  | cons c cs => right; exact ⟨c ++ render_components cs ++ t, by simp [render_components]⟩

/-- The scan of the rewind over `a ++ "/" ++ c`, from any position inside `c`. -/
theorem full_path_rewind_scan_eq (a c : Bytes) (hc : 47 ∉ c) (k : Nat) (hk : k ≤ c.length) :
    full_path_rewind_scan (a ++ 47 :: c) 1 0 (a.length + 1 + k) =
      if 1 ≤ a.length then a.length else 0 := by
  induction k with
  | zero =>
    rw [Nat.add_zero, full_path_rewind_scan]
    have hg : (a ++ 47 :: c).getD a.length 0 = 47 := by
      rw [List.getD_append_right _ _ _ _ (le_refl _)]; simp
    rw [hg, is_dirsep_47]
    by_cases ha : 1 ≤ a.length
    · rw [if_pos (by omega), if_pos rfl, if_pos ha]
    · rw [if_neg (by omega), if_neg ha]
  | succ k ih =>
    rw [← Nat.add_assoc, full_path_rewind_scan, if_pos (by omega)]
    have hlt : k < c.length := by omega
    have hg : (a ++ 47 :: c).getD (a.length + 1 + k) 0 = c.getD k 0 := by
      rw [List.getD_append_right _ _ _ _ (by omega)]
      have : a.length + 1 + k - a.length = k + 1 := by omega
      rw [this]
      rfl
    have hne : c.getD k 0 ≠ 47 := by
      rw [List.getD_eq_getElem _ _ hlt]
      intro e
      exact hc (e ▸ List.getElem_mem hlt)
    rw [hg, is_dirsep_ne _ _ hne]
    simp only [Bool.false_eq_true, if_false]
    exact ih (by omega)

/-- The rewind removes the last component of a rendered list of components. -/
theorem full_path_rewind_render (cs : List Bytes) (h : ∀ c ∈ cs, 47 ∉ c) :
    full_path_rewind (render_components cs) 1 0 = render_components cs.dropLast := by
  rcases List.eq_nil_or_concat cs with rfl | ⟨init, c, rfl⟩
  · rfl
  · simp only [List.concat_eq_append] at h ⊢
    have hc : 47 ∉ c := h c (by simp)
    rw [List.dropLast_concat, render_components_append]
    unfold full_path_rewind
    have hlen : (render_components init ++ 47 :: c).length =
        (render_components init).length + 1 + c.length := by
      simp only [List.length_append, List.length_cons]; omega
    rw [hlen, full_path_rewind_scan_eq _ c hc c.length (le_refl _)]
    simp only [Nat.not_lt_zero, if_false]
    by_cases ha : 1 ≤ (render_components init).length
    · rw [if_pos ha, List.take_left]
    · rw [if_neg ha]
      have : render_components init = [] := List.eq_nil_of_length_eq_zero (by omega)
      rw [this]
      rfl

/-- Every path is a first run of bytes that are not separators followed by nothing or by a
separator and the rest. -/
theorem first_component_split (q : Bytes) :
    ∃ comp rest, q = comp ++ rest ∧ 47 ∉ comp ∧ (rest = [] ∨ ∃ r, rest = 47 :: r) := by
  induction q with
  | nil => exact ⟨[], [], rfl, by simp, Or.inl rfl⟩
  | cons c q ih =>
    by_cases hc : c = 47
    · exact ⟨[], c :: q, rfl, by simp, Or.inr ⟨q, by rw [hc]⟩⟩
    · obtain ⟨comp, rest, h1, h2, h3⟩ := ih
      refine ⟨c :: comp, rest, by rw [h1]; rfl, ?_, h3⟩
      intro hm
      rcases List.mem_cons.mp hm with e | e
      · exact hc e.symm
      · exact h2 e

/-- The invariant of the main loop on a rooted path: started at a separator (or at the end)
with `tmp` a rendered list of kept components, the loop ends with such a list, possibly
followed by one separator. -/
theorem full_path_run_inv (n : Nat) :
    ∀ (p : Bytes) (cs : List Bytes), p.length ≤ n → (p = [] ∨ ∃ q, p = 47 :: q) →
      (∀ c ∈ cs, kept_component c) →
      ∃ cs2, (∀ c ∈ cs2, kept_component c) ∧
        (full_path_run 1 0 p (render_components cs) = render_components cs2 ∨
          full_path_run 1 0 p (render_components cs) = render_components cs2 ++ [47]) := by
  induction n with
  | zero =>
    intro p cs hlen _ hcs
    have hp : p = [] := List.eq_nil_of_length_eq_zero (by omega)
    subst hp
    exact ⟨cs, hcs, Or.inl rfl⟩
  | succ n ih =>
    intro p cs hlen hb hcs
    rcases hb with rfl | ⟨q, rfl⟩
    · exact ⟨cs, hcs, Or.inl rfl⟩
    · obtain ⟨comp, rest, rfl, hs, hr⟩ := first_component_split q
      have hdrop : ∀ c ∈ cs.dropLast, kept_component c :=
        fun c hc => hcs c (List.dropLast_subset cs hc)
      have hns : ∀ c ∈ cs, 47 ∉ c := fun c hc => (hcs c hc).2.1
      simp only [List.length_cons, List.length_append] at hlen
      by_cases h0 : comp = []
      · subst h0
        rcases hr with rfl | ⟨r, rfl⟩
        · exact ⟨cs, hcs, Or.inr (full_path_run_last_sep 1 0 _)⟩
        · rw [List.nil_append, full_path_run_sep_sep]
          exact ih (47 :: r) cs (by simp only [List.length_cons] at hlen ⊢; omega)
            (Or.inr ⟨r, rfl⟩) hcs
      · by_cases h1 : comp = [46]
        · subst h1
          rcases hr with rfl | ⟨r, rfl⟩
          · exact ⟨cs, hcs, Or.inl (full_path_run_dot_end 1 0 _)⟩
          · rw [List.singleton_append, full_path_run_dot_sep]
            exact ih (47 :: r) cs (by simp only [List.length_cons] at hlen ⊢; omega)
              (Or.inr ⟨r, rfl⟩) hcs
        · by_cases h2 : comp = [46, 46]
          · subst h2
            rcases hr with rfl | ⟨r, rfl⟩
            · refine ⟨cs.dropLast, hdrop, Or.inl ?_⟩
              rw [List.append_nil, full_path_run_dotdot_end, full_path_rewind_render cs hns]
            · have e : 47 :: ([46, 46] ++ 47 :: r) = 47 :: 46 :: 46 :: 47 :: r := rfl
              rw [e, full_path_run_dotdot_sep, full_path_rewind_render cs hns]
              exact ih (47 :: r) cs.dropLast
                (by simp only [List.length_cons] at hlen ⊢; omega) (Or.inr ⟨r, rfl⟩) hdrop
          · rw [full_path_run_sep_comp 1 0 comp rest _ h0 hs h1 h2 hr,
              full_path_run_copy 1 0 comp hs, List.append_assoc, List.singleton_append,
              ← render_components_append]
            refine ih rest (cs ++ [comp]) (by omega) hr ?_
            intro c hc
            rcases List.mem_append.mp hc with hc | hc
            · exact hcs c hc
            · rw [List.mem_singleton.mp hc]
              exact ⟨h0, hs, h1, h2⟩

theorem is_normalized_unix_append_no_sep (comp l : Bytes) (h : 47 ∉ comp) :
    is_normalized_unix_loop (comp ++ l) = is_normalized_unix_loop l := by
  induction comp with
  | nil => rfl
  | cons c cs ih =>
    have hc : c ≠ 47 := fun e => h (by simp [e])
    rw [List.cons_append, is_normalized_unix_cons_not_sep _ _ hc]
    exact ih (fun e => h (List.mem_cons_of_mem _ e))

theorem is_normalized_unix_sep_comp (comp l : Bytes) (hne : comp ≠ []) (h : 47 ∉ comp) :
    is_normalized_unix_loop (47 :: (comp ++ l)) = is_normalized_unix_loop l := by
  cases comp with
  | nil => exact absurd rfl hne
  | cons d cs =>
    have hd : d ≠ 47 := fun e => h (by simp [e])
    rw [List.cons_append, is_normalized_unix_loop]
    simp only [is_dirsep_ne d false hd, Bool.false_and, Bool.false_eq_true, if_false]
    rw [← List.cons_append]
    exact is_normalized_unix_append_no_sep _ _ h

theorem no_adjacent_separators_iff (p : Bytes) :
    no_adjacent_separators p ↔ is_normalized_unix_loop p = true := by
  unfold no_adjacent_separators
  induction p with
  | nil => simp [is_normalized_unix_loop]
  | cons a rest ih =>
    cases rest with
    | nil => simp [is_normalized_unix_loop]
    | cons b rest2 =>
      rw [List.chain'_cons, ih, is_normalized_unix_loop]
      simp only [pathL_is_dirsep, STD_PATH_DIRSEP, beq_iff_eq, Bool.and_eq_true]
      by_cases h : b = 47 ∧ a = 47
      · simp [h.1, h.2]
      · rw [if_neg h]
        constructor
        · exact fun hh => hh.2
        · exact fun hh => ⟨fun e => h ⟨e.2, e.1⟩, hh⟩

theorem render_components_cons_append (c : Bytes) (cs : List Bytes) (t : Bytes) :
    render_components (c :: cs) ++ t = 47 :: (c ++ (render_components cs ++ t)) := by
  simp [render_components]

theorem is_normalized_render (cs : List Bytes) (h : ∀ c ∈ cs, c ≠ [] ∧ 47 ∉ c) (t : Bytes)
    (ht : t = [] ∨ t = [47]) : is_normalized_unix_loop (render_components cs ++ t) = true := by
  induction cs with
  | nil => rcases ht with rfl | rfl <;> rfl
  | cons c cs ih =>
    have hc := h c (List.mem_cons_self _ _)
    rw [render_components_cons_append, is_normalized_unix_sep_comp _ _ hc.1 hc.2]
    exact ih (fun d hd => h d (List.mem_cons_of_mem _ hd))

theorem split_at_separators_ne_nil (l : Bytes) : split_at_separators l ≠ [] := by
  cases l with
  | nil => simp [split_at_separators]
  | cons c rest =>
    rw [split_at_separators]
    split
    · simp
    · split <;> simp

theorem split_at_separators_append (comp Y piece : Bytes) (more : List Bytes) (h : 47 ∉ comp)
    (hY : split_at_separators Y = piece :: more) :
    split_at_separators (comp ++ Y) = (comp ++ piece) :: more := by
  induction comp with
  | nil => simpa using hY
  | cons c cs ih =>
    have hc : c ≠ 47 := fun e => h (by simp [e])
    rw [List.cons_append, split_at_separators, if_neg hc,
      ih (fun e => h (List.mem_cons_of_mem _ e))]
    rfl

theorem path_components_sep (X : Bytes) : path_components (47 :: X) = path_components X := by
  simp [path_components, split_at_separators]

theorem path_components_comp (comp Y : Bytes) (hne : comp ≠ []) (h : 47 ∉ comp)
    (hY : Y = [] ∨ ∃ r, Y = 47 :: r) :
    path_components (comp ++ Y) = comp :: path_components Y := by
  rcases hY with rfl | ⟨r, rfl⟩
  · have := split_at_separators_append comp [] [] [] h rfl
    simp only [path_components, this]
    simp [split_at_separators, hne]
  · have hs : split_at_separators (47 :: r) = [] :: split_at_separators r := by
      simp [split_at_separators]
    have := split_at_separators_append comp (47 :: r) [] _ h hs
    simp only [path_components, this, hs]
    simp [hne]

theorem path_components_render (cs : List Bytes) (h : ∀ c ∈ cs, c ≠ [] ∧ 47 ∉ c) (t : Bytes)
    (ht : t = [] ∨ t = [47]) : path_components (render_components cs ++ t) = cs := by
  induction cs with
  | nil => rcases ht with rfl | rfl <;> simp [render_components, path_components, split_at_separators]
  | cons c cs ih =>
    have hc := h c (List.mem_cons_self _ _)
    rw [render_components_cons_append, path_components_sep,
      path_components_comp _ _ hc.1 hc.2 (render_components_boundary cs t ht),
      ih (fun d hd => h d (List.mem_cons_of_mem _ hd))]

theorem rooted_posix_iff (p : Bytes) : pathL_is_rooted .posix p = true ↔ ∃ q, p = 47 :: q := by
  cases p with
  | nil => simp [pathL_is_rooted, pathL_root_length]
  | cons c q =>
    by_cases hc : c = 47
    · subst hc
      simp [pathL_is_rooted, pathL_root_length, is_dirsep_47]
    · simp [pathL_is_rooted, pathL_root_length, is_dirsep_ne c false hc, hc]

/-- `pathL_full_path` on a rooted path: the loop is run from the start of the path on an empty
`tmp`, and the separator of the root is added when the loop leaves `tmp` empty. -/
theorem pathL_full_path_rooted (cwd : Option Bytes) (q : Bytes) :
    pathL_full_path cwd (47 :: q) =
      some (if (full_path_run 1 0 (47 :: q) []).length < 1
        then full_path_run 1 0 (47 :: q) [] ++ [47] else full_path_run 1 0 (47 :: q) []) := by
  have hr : pathL_is_rooted .posix (47 :: q) = true := (rooted_posix_iff _).mpr ⟨q, rfl⟩
  have hl : (pathL_root_length .posix (47 :: q)).1 = 1 := by
    simp [pathL_root_length, is_dirsep_47]
  unfold pathL_full_path
  simp only [hr, Bool.not_true, Bool.false_eq_true, if_false, hl, Nat.one_ne_zero,
    Nat.sub_self, List.getD_cons_zero, is_dirsep_47, if_true, Nat.sub_zero, List.drop_zero,
    ne_eq, Nat.zero_ne_one, not_false_eq_true, true_and]
  have hls : lstring (47 :: q) 0 0 = [] := by simp [lstring]
  rw [hls]
  simp only [full_path_run]
  split <;> rfl

/-- A rooted path without adjacent separators is a rendered list of components, possibly
followed by one separator. -/
theorem render_of_normalized (n : Nat) :
    ∀ (p : Bytes), p.length ≤ n → (p = [] ∨ ∃ q, p = 47 :: q) →
      is_normalized_unix_loop p = true →
      ∃ cs t, (t = [] ∨ t = [47]) ∧ p = render_components cs ++ t ∧
        ∀ c ∈ cs, c ≠ [] ∧ 47 ∉ c := by
  induction n with
  | zero =>
    intro p hlen _ _
    have hp : p = [] := List.eq_nil_of_length_eq_zero (by omega)
    exact ⟨[], [], Or.inl rfl, by rw [hp]; rfl, by simp⟩
  | succ n ih =>
    intro p hlen hb hn
    rcases hb with rfl | ⟨q, rfl⟩
    · exact ⟨[], [], Or.inl rfl, rfl, by simp⟩
    · obtain ⟨comp, rest, rfl, hs, hr⟩ := first_component_split q
      simp only [List.length_cons, List.length_append] at hlen
      by_cases h0 : comp = []
      · subst h0
        rcases hr with rfl | ⟨r, rfl⟩
        · exact ⟨[], [47], Or.inr rfl, rfl, by simp⟩
        · rw [List.nil_append, is_normalized_unix_loop] at hn
          simp [is_dirsep_47] at hn
      · rw [is_normalized_unix_sep_comp _ _ h0 hs] at hn
        obtain ⟨cs, t, ht, hp, hcs⟩ := ih rest (by omega) hr hn
        refine ⟨comp :: cs, t, ht, ?_, ?_⟩
        · rw [hp, render_components]
          simp
        · intro c hc
          rcases List.mem_cons.mp hc with e | e
          · rw [e]; exact ⟨h0, hs⟩
          · exact hcs c e

/-- On a rendered list of kept components the loop copies everything. -/
theorem full_path_run_render (cs : List Bytes) (h : ∀ c ∈ cs, kept_component c) (t : Bytes)
    (ht : t = [] ∨ t = [47]) :
    ∀ (cs0 : List Bytes), full_path_run 1 0 (render_components cs ++ t) (render_components cs0) =
      render_components (cs0 ++ cs) ++ t := by
  induction cs with
  | nil =>
    intro cs0
    rcases ht with rfl | rfl
    · simp [render_components, full_path_run_nil]
    · simp [render_components, full_path_run_last_sep]
  | cons c cs ih =>
    intro cs0
    have hc := h c (List.mem_cons_self _ _)
    rw [render_components_cons_append,
      full_path_run_sep_comp 1 0 c _ _ hc.1 hc.2.1 hc.2.2.1 hc.2.2.2
        (render_components_boundary cs t ht),
      full_path_run_copy 1 0 c hc.2.1, List.append_assoc, List.singleton_append,
      ← render_components_append, ih (fun d hd => h d (List.mem_cons_of_mem _ hd))]
    simp

/-- Without a base path `path_full_path` hands a path that passes `pathL_checklpath` to
`pathL_full_path` unchanged. -/
theorem path_full_path_no_base (cwd : Option Bytes) (p : Bytes)
    (h : pathL_checklpath .posix p = .ok p) :
    path_full_path cwd p none = .ok (pathL_full_path cwd p) := by
  unfold path_full_path
  rw [h]
  rfl

/-- C18: on the POSIX grammar, for every path `p` that is rooted, has no two adjacent
separators and has no component equal to `.` or `..`, `full_path(p)` is `p`. -/
theorem full_path_clean_identity (cwd : Option Bytes) (p : Bytes)
    (hr : pathL_is_rooted .posix p = true) (hn : no_adjacent_separators p)
    (hd : no_dot_components p) : pathL_full_path cwd p = some p := by
  obtain ⟨q, rfl⟩ := (rooted_posix_iff p).mp hr
  obtain ⟨cs, t, ht, hp, hcs⟩ := render_of_normalized _ (47 :: q) (le_refl _)
    (Or.inr ⟨q, rfl⟩) ((no_adjacent_separators_iff _).mp hn)
  have hcomp : path_components (47 :: q) = cs := by
    rw [hp]; exact path_components_render cs hcs t ht
  have hkept : ∀ c ∈ cs, kept_component c := by
    intro c hc
    refine ⟨(hcs c hc).1, (hcs c hc).2, ?_, ?_⟩
    · intro e
      exact hd.1 (by rw [hcomp, ← e]; exact hc)
    · intro e
      exact hd.2 (by rw [hcomp, ← e]; exact hc)
  have hrun : full_path_run 1 0 (47 :: q) [] = 47 :: q := by
    have := full_path_run_render cs hkept t ht []
    rw [List.nil_append, ← hp] at this
    exact this
  rw [pathL_full_path_rooted, hrun]
  simp

/-- C18 (witness): the statement at `p = "/usr/local/lib/"`. -/
theorem full_path_clean_identity_witness :
    pathL_full_path none (bytes "/usr/local/lib/") = some (bytes "/usr/local/lib/") :=
  full_path_clean_identity none (bytes "/usr/local/lib/") (by decide)
    ((no_adjacent_separators_iff _).mpr (by decide))
    ⟨by decide, by decide⟩

/-- C19: on the POSIX grammar, for every rooted path `p`, `full_path(p)` returns a path that
starts with `/`, has no two adjacent separators and has no component equal to `.` or `..`. -/
theorem full_path_resolved (cwd : Option Bytes) (p : Bytes)
    (hr : pathL_is_rooted .posix p = true) :
    ∃ out, pathL_full_path cwd p = some out ∧ out.head? = some 47 ∧
      no_adjacent_separators out ∧ no_dot_components out := by
  obtain ⟨q, rfl⟩ := (rooted_posix_iff p).mp hr
  obtain ⟨cs, hcs, hrun⟩ := full_path_run_inv _ (47 :: q) [] (le_refl _) (Or.inr ⟨q, rfl⟩)
    (by simp)
  have hcs2 : ∀ c ∈ cs, c ≠ [] ∧ 47 ∉ c := fun c hc => ⟨(hcs c hc).1, (hcs c hc).2.1⟩
  have hshape : ∃ out t, pathL_full_path cwd (47 :: q) = some out ∧ (t = [] ∨ t = [47]) ∧
      out = render_components cs ++ t ∧ out ≠ [] := by
    rw [pathL_full_path_rooted]
    change (full_path_run 1 0 (47 :: q) (render_components []) = render_components cs ∨
      full_path_run 1 0 (47 :: q) (render_components []) = render_components cs ++ [47]) at hrun
    have e0 : render_components [] = [] := rfl
    rw [e0] at hrun
    rcases hrun with h | h
    · rw [h]
      cases cs with
      | nil => exact ⟨[47], [47], by simp [render_components], Or.inr rfl, rfl, by simp⟩
      | cons c cs =>
        refine ⟨render_components (c :: cs), [], ?_, Or.inl rfl, by simp, ?_⟩
        · simp [render_components]
        · simp [render_components]
    · rw [h]
      refine ⟨render_components cs ++ [47], [47], ?_, Or.inr rfl, rfl, by simp⟩
      simp
  obtain ⟨out, t, hout, ht, hform, hne⟩ := hshape
  refine ⟨out, hout, ?_, ?_, ?_⟩
  · rcases render_components_boundary cs t ht with h | ⟨r, h⟩
    · rw [hform] at hne; exact absurd h hne
    · rw [hform, h]; rfl
  · rw [no_adjacent_separators_iff, hform]
    exact is_normalized_render cs hcs2 t ht
  · have hc : path_components out = cs := by
      rw [hform]; exact path_components_render cs hcs2 t ht
    unfold no_dot_components
    rw [hc]
    exact ⟨fun h => (hcs _ h).2.2.1 rfl, fun h => (hcs _ h).2.2.2 rfl⟩

/-- C19 (witness): the statement at `p = "/a/b/../c"`; there, and at the other two paths of the
claim, `full_path("/a/b/../c") = "/a/c"`, `full_path("/../../x") = "/x"` and
`full_path("/a/..") = "/"`. -/
theorem full_path_resolved_witness :
    (∃ out, pathL_full_path none (bytes "/a/b/../c") = some out ∧ out.head? = some 47 ∧
        no_adjacent_separators out ∧ no_dot_components out) ∧
      pathL_full_path none (bytes "/a/b/../c") = some (bytes "/a/c") ∧
      pathL_full_path none (bytes "/../../x") = some (bytes "/x") ∧
      pathL_full_path none (bytes "/a/..") = some (bytes "/") :=
  ⟨full_path_resolved none (bytes "/a/b/../c") (by decide), by decide, by decide, by decide⟩

/-! ## The claims C21 to C30 -/

/-- C22 (the code at a failing input): for the path `"a"` (length 1) and the index `3`,
`utilL_normalize_index` returns `3`, so `is_separator` examines position 3, which is not in
`1..1` (it reads `path[2]`, past the string and its terminator). Indices `0` and below
`-n` are brought back to `1`; an index above `n` is not brought back to `n`. -/
theorem is_separator_index_past_end :
    is_separator_position (bytes "a") 3 = 3 ∧ ¬ is_separator_position (bytes "a") 3 ≤ 1 ∧
      is_separator_position (bytes "a") 0 = 1 ∧ is_separator_position (bytes "a") (-7) = 1 := by
  decide

/-- C24 (the code at a failing input): on the POSIX grammar, non-verbatim, the forward tokens
of `"a/."` are `"a"` and `"."`: a run `.` standing last is yielded, because the test in
`path_tokenizer_next` lets a token through when `n == 0`. The tokens of `"./a/./b/"` are
`"a"`, `"b"` as the claim says. -/
theorem forward_tokens_trailing_dot :
    forward_tokens_of .posix (bytes "a/.") false = [bytes "a", bytes "."] ∧
      forward_tokens_of .posix (bytes "./a/./b/") false = [bytes "a", bytes "b"] := by
  decide

/-- C25 (the code at a failing input): on the POSIX grammar, non-verbatim, the backward tokens
of `"./a/./b/"` are `"b"`, `"a"`, `"."` while the forward tokens are `"a"`, `"b"`: the
backward sequence is not the reverse of the forward one. -/
theorem backward_tokens_not_mirror :
    backward_tokens_of .posix (bytes "./a/./b/") false = [bytes "b", bytes "a", bytes "."] ∧
      forward_tokens_of .posix (bytes "./a/./b/") false = [bytes "a", bytes "b"] ∧
      backward_tokens_of .posix (bytes "./a/./b/") false ≠
        (forward_tokens_of .posix (bytes "./a/./b/") false).reverse := by
  decide

/-- C28 (the code at a failing input): on the POSIX grammar `set_extension("a", "txt")` is
`"a.txt"` and `extension("a.txt")` returns nothing: the search for the period in
`pathL_split_path` stops above `file_offset + 1`, so the period at index 1 is not seen. With
a file name of two bytes, `extension(set_extension("ab", "txt"))` is `"txt"`. -/
theorem extension_of_set_extension_one_byte_name :
    path_set_extension .posix (bytes "a") (bytes "txt") = bytes "a.txt" ∧
      path_extension .posix (path_set_extension .posix (bytes "a") (bytes "txt")) = none ∧
      path_extension .posix (path_set_extension .posix (bytes "ab") (bytes "txt")) =
        some (bytes "txt") := by
  decide

/-- C30 (the code at a failing input): on the POSIX grammar `file_name("//a")` is `"/a"`, which
contains a separator and is not a valid file name: the search for the last separator in
`pathL_split_path` stops above `root_len`, so the separator at index 1 is not seen. -/
theorem file_name_after_double_separator :
    path_file_name .posix (bytes "//a") = some (bytes "/a") ∧
      pathL_is_valid_file_name .posix (bytes "/a") = false ∧
      pathL_is_valid_path .posix (bytes "//a") = true := by
  decide

/-! ## Helper lemmas: the comparator -/

theorem tolower_ne_zero (c : Nat) (h : c ≠ 0) : tolower c ≠ 0 := by
  unfold tolower
  split <;> omega

/-- On NUL-free ranges of equal length `strncasecmp` is `0` exactly when the ranges are equal
after folding. -/
theorem strncasecmp_eq_zero_iff (a : Bytes) :
    ∀ (b : Bytes), a.length = b.length → 0 ∉ a →
      (strncasecmp a b a.length = 0 ↔ a.map tolower = b.map tolower) := by
  induction a with
  | nil =>
    intro b hl _
    have hb : b = [] := List.eq_nil_of_length_eq_zero hl.symm
    subst hb
    simp [strncasecmp]
  | cons x xs ih =>
    intro b hl h0
    cases b with
    | nil => simp at hl
    | cons y ys =>
      have hx : x ≠ 0 := fun e => h0 (by simp [e])
      have hxs : 0 ∉ xs := fun e => h0 (List.mem_cons_of_mem _ e)
      have hl2 : xs.length = ys.length := by simpa using hl
      rw [List.length_cons, strncasecmp]
      simp only [List.headD_cons, List.tail_cons, List.map_cons, List.cons.injEq]
      by_cases hxy : tolower x = tolower y
      · simp only [hxy, ne_eq, not_true_eq_false, if_false, true_and]
        rw [← hxy, if_neg (tolower_ne_zero x hx)]
        exact ih ys hl2 hxs
      · simp only [ne_eq, hxy, not_false_eq_true, if_true, false_and, iff_false]
        omega

/-- C26: for all byte ranges `a` and `b` without NUL bytes, `compare(a, b)` is positive when
`a` is longer, negative when `a` is shorter, and, when the lengths are equal, `0` if and only
if `a` and `b` are equal after folding ASCII upper-case letters to lower case; `compare(a, a)`
is `0`, and `compare(a, b) = 0` if and only if `compare(b, a) = 0`. -/
theorem compare_length_first (a b : Bytes) (ha : 0 ∉ a) (hb : 0 ∉ b) :
    (b.length < a.length → 0 < pathL_compare a a.length b b.length) ∧
      (a.length < b.length → pathL_compare a a.length b b.length < 0) ∧
      (a.length = b.length →
        (pathL_compare a a.length b b.length = 0 ↔ a.map tolower = b.map tolower)) ∧
      pathL_compare a a.length a a.length = 0 ∧
      (pathL_compare a a.length b b.length = 0 ↔ pathL_compare b b.length a a.length = 0) := by
  have heq : ∀ (x y : Bytes), 0 ∉ x → x.length = y.length →
      (pathL_compare x x.length y y.length = 0 ↔ x.map tolower = y.map tolower) := by
    intro x y hx hl
    unfold pathL_compare
    rw [if_neg (by omega), if_neg (by omega)]
    exact strncasecmp_eq_zero_iff x y hl hx
  have hne : ∀ (x y : Bytes), x.length ≠ y.length → pathL_compare x x.length y y.length ≠ 0 := by
    intro x y hl
    unfold pathL_compare
    by_cases h1 : x.length > y.length
    · rw [if_pos h1]; decide
    · rw [if_neg h1, if_pos (by omega)]; decide
  refine ⟨?_, ?_, fun hl => heq a b ha hl, pathL_compare_self a a.length, ?_⟩
  · intro h
    unfold pathL_compare
    rw [if_pos h]
    decide
  · intro h
    unfold pathL_compare
    rw [if_neg (by omega), if_pos h]
    decide
  · by_cases hl : a.length = b.length
    · rw [heq a b ha hl, heq b a hb hl.symm]
      exact eq_comm
    · constructor
      · intro h; exact absurd h (hne a b hl)
      · intro h; exact absurd h (hne b a (fun e => hl e.symm))

/-- C26 (witness): the statement at `a = "Readme.TXT"`, `b = "readme.txt"`, which compare
equal. -/
theorem compare_length_first_witness :
    pathL_compare (bytes "Readme.TXT") 10 (bytes "readme.txt") 10 = 0 :=
  ((compare_length_first (bytes "Readme.TXT") (bytes "readme.txt") (by decide)
    (by decide)).2.2.1 (by decide)).mpr (by decide)

/-! ## Helper lemmas: root length and the split loops -/

theorem root_scan_first_le (g : Grammar) (v : Bool) (l : Bytes) (k : Nat) :
    root_scan_first g v l k ≤ k + l.length := by
  induction l generalizing k with
  | nil => simp [root_scan_first]
  | cons c rest ih =>
    unfold root_scan_first
    split
    · simp
    · have := ih (k + 1)
      simp only [List.length_cons]
      omega

theorem root_scan_second_le (g : Grammar) (v : Bool) (l : Bytes) (i k : Nat) :
    root_scan_second g v l i k ≤ k + l.length := by
  induction l generalizing i k with
  | nil => simp [root_scan_second]
  | cons c rest ih =>
    unfold root_scan_second
    simp only [List.length_cons]
    split
    · split
      · omega
      · have := ih (i - 1) (k + 1)
        omega
    · have := ih i (k + 1)
      omega

/-- The root is a prefix of the path: its length never exceeds the path's. -/
theorem root_length_le (g : Grammar) (path : Bytes) :
    (pathL_root_length g path).1 ≤ path.length := by
  cases g with
  | posix =>
    unfold pathL_root_length
    simp only
    split
    · rename_i h
      simp only [Bool.and_eq_true, decide_eq_true_eq] at h
      omega
    · omega
  | windows =>
    unfold pathL_root_length
    simp only
    split
    · rename_i h
      simp only [Bool.and_eq_true, decide_eq_true_eq] at h
      split
      · rename_i h2
        simp only [Bool.and_eq_true, decide_eq_true_eq] at h2
        omega
      · omega
    · split
      · rename_i hvd
        have h4 : 4 ≤ path.length := by
          simp only [Bool.or_eq_true, pathL_is_verbatim, is_device, Bool.and_eq_true,
            decide_eq_true_eq] at hvd
          rcases hvd with h | h <;> exact h.1
        split
        · have := root_scan_first_le .windows (pathL_is_verbatim .windows path) (path.drop 4) 4
          simp only [List.length_drop] at this
          simp only
          omega
        · rename_i h8
          simp only [Bool.or_eq_true, decide_eq_true_eq, not_or, not_lt] at h8
          have := root_scan_second_le .windows (pathL_is_verbatim .windows path)
            (path.drop 8) 2 8
          simp only [List.length_drop] at this
          simp only
          omega
      · split
        · rename_i hu
          simp only [is_unc, Bool.and_eq_true, decide_eq_true_eq] at hu
          have := root_scan_second_le .windows false (path.drop 2) 2 2
          simp only [List.length_drop] at this
          simp only
          omega
        · simp only
          split
          · rename_i hs
            cases path with
            | nil => simp [pathL_is_dirsep, STD_PATH_DIRSEP, STD_PATH_ALTDIRSEP] at hs
            | cons a l => simp
          · omega

theorem split_file_offset_ge (g : Grammar) (path : Bytes) (v : Bool) (rl : Nat) (i : Nat) :
    rl ≤ split_file_offset g path v rl i := by
  induction i with
  | zero => simp [split_file_offset]
  | succ i ih =>
    unfold split_file_offset
    split
    · split
      · omega
      · exact ih
    · omega

theorem split_file_offset_le (g : Grammar) (path : Bytes) (v : Bool) (rl : Nat) (i : Nat)
    (h : rl ≤ i) : split_file_offset g path v rl i ≤ i := by
  induction i with
  | zero => simpa [split_file_offset] using h
  | succ i ih =>
    unfold split_file_offset
    split
    · split
      · omega
      · have := ih (by omega)
        omega
    · exact h

theorem split_file_offset_of_le (g : Grammar) (path : Bytes) (v : Bool) (rl : Nat) (i : Nat)
    (h : i ≤ rl + 1) : split_file_offset g path v rl i = rl := by
  cases i with
  | zero => rfl
  | succ i =>
    unfold split_file_offset
    rw [if_neg (by omega)]

theorem split_dir_len_le (g : Grammar) (path : Bytes) (v : Bool) (rl : Nat) (d : Nat) :
    split_dir_len g path v rl d ≤ d := by
  induction d with
  | zero => simp [split_dir_len]
  | succ d ih =>
    unfold split_dir_len
    split
    · omega
    · omega

theorem split_dir_len_ge (g : Grammar) (path : Bytes) (v : Bool) (rl : Nat) (d : Nat)
    (h : rl ≤ d) : rl ≤ split_dir_len g path v rl d := by
  induction d with
  | zero => simpa [split_dir_len] using h
  | succ d ih =>
    unfold split_dir_len
    split
    · rename_i hc
      simp only [Bool.and_eq_true, decide_eq_true_eq] at hc
      exact ih (by omega)
    · exact h

theorem split_dir_len_of_le (g : Grammar) (path : Bytes) (v : Bool) (rl : Nat) (d : Nat)
    (h : d ≤ rl) : split_dir_len g path v rl d = d := by
  cases d with
  | zero => rfl
  | succ d =>
    unfold split_dir_len
    rw [if_neg]
    simp only [Bool.and_eq_true, decide_eq_true_eq, not_and]
    intro h2
    omega

theorem split_ext_offset_spec (path : Bytes) (fo : Nat) (i : Nat) :
    split_ext_offset path fo i = 0 ∨
      (fo + 2 < split_ext_offset path fo i ∧ split_ext_offset path fo i ≤ i ∧
        path.getD (split_ext_offset path fo i - 1) 0 = 46) := by
  induction i with
  | zero => left; rfl
  | succ i ih =>
    unfold split_ext_offset
    split
    · split
      · rename_i h1 h2
        right
        refine ⟨by omega, by omega, ?_⟩
        simpa using h2
      · rcases ih with h | h
        · left; exact h
        · right; exact ⟨h.1, by omega, h.2.2⟩
    · left; rfl

/-- C23: `split_path` returns well-formed components on either grammar: for every path of
length `n`, `root_len` is the root length of the path and
`root_len ≤ dir_len ≤ file_offset ≤ n`; `ext_offset` is `0` or satisfies
`file_offset < ext_offset ≤ n` with `path[ext_offset-1] = '.'`, that `'.'` being neither the
first nor the second byte of the file name; and when `root_len = n` then
`dir_len = file_offset = root_len`. -/
theorem split_path_well_formed (g : Grammar) (path : Bytes) :
    (pathL_split_path g path).root_len = (pathL_root_length g path).1 ∧
      (pathL_split_path g path).root_len ≤ (pathL_split_path g path).dir_len ∧
      (pathL_split_path g path).dir_len ≤ (pathL_split_path g path).file_offset ∧
      (pathL_split_path g path).file_offset ≤ path.length ∧
      ((pathL_split_path g path).ext_offset = 0 ∨
        ((pathL_split_path g path).file_offset < (pathL_split_path g path).ext_offset ∧
          (pathL_split_path g path).ext_offset ≤ path.length ∧
          path.getD ((pathL_split_path g path).ext_offset - 1) 0 = 46 ∧
          (pathL_split_path g path).ext_offset - 1 ≠ (pathL_split_path g path).file_offset ∧
          (pathL_split_path g path).ext_offset - 1 ≠
            (pathL_split_path g path).file_offset + 1)) ∧
      ((pathL_split_path g path).root_len = path.length →
        (pathL_split_path g path).dir_len = (pathL_split_path g path).root_len ∧
          (pathL_split_path g path).file_offset = (pathL_split_path g path).root_len) := by
  by_cases hn : path.length = 0
  · have hp : path = [] := List.eq_nil_of_length_eq_zero hn
    subst hp
    cases g <;> decide
  · have hrl := root_length_le g path
    have hfo_ge := split_file_offset_ge g path (pathL_root_length g path).2
      (pathL_root_length g path).1 path.length
    have hfo_le := split_file_offset_le g path (pathL_root_length g path).2
      (pathL_root_length g path).1 path.length hrl
    have hdl_le := split_dir_len_le g path (pathL_root_length g path).2
      (pathL_root_length g path).1
      (split_file_offset g path (pathL_root_length g path).2 (pathL_root_length g path).1
        path.length)
    have hdl_ge := split_dir_len_ge g path (pathL_root_length g path).2
      (pathL_root_length g path).1
      (split_file_offset g path (pathL_root_length g path).2 (pathL_root_length g path).1
        path.length) hfo_ge
    have hext := split_ext_offset_spec path
      (split_file_offset g path (pathL_root_length g path).2 (pathL_root_length g path).1
        path.length) path.length
    unfold pathL_split_path
    simp only [if_neg hn]
    refine ⟨trivial, hdl_ge, hdl_le, hfo_le, ?_, ?_⟩
    · rcases hext with h | h
      · left; exact h
      · right
        refine ⟨by omega, h.2.1, h.2.2, by omega, by omega⟩
    · intro h
      have hfo := split_file_offset_of_le g path (pathL_root_length g path).2
        (pathL_root_length g path).1 path.length (by omega)
      rw [hfo]
      exact ⟨split_dir_len_of_le g path _ _ _ (le_refl _), rfl⟩

/-- C23 (witness): the root-only case at the POSIX path `/`, where `root_len = n = 1`. -/
theorem split_path_well_formed_witness :
    (pathL_split_path .posix (bytes "/")).dir_len = (pathL_split_path .posix (bytes "/")).root_len ∧
      (pathL_split_path .posix (bytes "/")).file_offset =
        (pathL_split_path .posix (bytes "/")).root_len :=
  (split_path_well_formed .posix (bytes "/")).2.2.2.2.2 (by decide)

/-! ## Helper lemmas: the verbatim flag -/

theorem getD_take (p : Bytes) (m i : Nat) (h : i < m) : (p.take m).getD i 0 = p.getD i 0 := by
  simp only [List.getD_eq_getElem?_getD]
  rw [List.getElem?_take_of_lt h]

theorem root_length_posix (p : Bytes) :
    pathL_root_length .posix p = (if p.getD 0 0 = 47 then 1 else 0, false) := by
  cases p with
  | nil => rfl
  | cons c q =>
    by_cases hc : c = 47
    · subst hc; simp [pathL_root_length, is_dirsep_47]
    · simp [pathL_root_length, is_dirsep_ne c false hc, hc]

theorem no_adjacent_separators_index (p : Bytes) (h : no_adjacent_separators p) :
    ∀ (i : Nat), i + 1 < p.length → ¬ (p.getD i 0 = 47 ∧ p.getD (i + 1) 0 = 47) := by
  unfold no_adjacent_separators at h
  induction p with
  | nil => intro i hi; simp at hi
  | cons a rest ih =>
    cases rest with
    | nil => intro i hi; simp at hi
    | cons b r2 =>
      rw [List.chain'_cons] at h
      intro i hi
      cases i with
      | zero => simpa using h.1
      | succ k =>
        have := ih h.2 k (by simpa using hi)
        simpa using this

/-- When the file-offset scan stops at a separator, that separator sits right before the file
name and after the byte at `root_len`. -/
theorem split_file_offset_sep (g : Grammar) (path : Bytes) (v : Bool) (rl : Nat) (i : Nat)
    (h : rl < split_file_offset g path v rl i) :
    rl + 2 ≤ split_file_offset g path v rl i ∧
      pathL_is_dirsep g (path.getD (split_file_offset g path v rl i - 1) 0) v = true := by
  induction i with
  | zero => simp [split_file_offset] at h
  | succ i ih =>
    unfold split_file_offset at h ⊢
    split
    · rename_i h1
      split
      · rename_i h2
        exact ⟨by omega, by simpa using h2⟩
      · rename_i h2
        rw [if_pos h1, if_neg h2] at h
        exact ih h
    · rename_i h1
      rw [if_neg h1] at h
      omega

theorem lstring_drop (s : Bytes) (off : Nat) (h : off ≤ s.length) :
    lstring s off (s.length - off) = s.drop off := by
  unfold lstring
  have h0 : off + (s.length - off) - s.length = 0 := by omega
  rw [h0]
  simp

theorem take_getD_drop (p : Bytes) (k : Nat) (h : k < p.length) :
    p.take k ++ p.getD k 0 :: p.drop (k + 1) = p := by
  have e : p.getD k 0 = p[k] := by
    simp [List.getD_eq_getElem?_getD, List.getElem?_eq_getElem h]
  rw [e, ← List.drop_eq_getElem_cons h, List.take_append_drop]

/-- The second loop of `path_combine` on two non-empty fragments, the second not rooted. -/
theorem combine_two_posix (a b : Bytes) (ha : a ≠ []) (hb : b ≠ []) (hbr : b.getD 0 0 ≠ 47) :
    path_combine .posix [a, b] =
      some (a ++ (if a.getD (a.length - 1) 0 = 47 then [] else [47]) ++ b) := by
  have hla : a.length ≠ 0 := fun e => ha (List.eq_nil_of_length_eq_zero e)
  have hlb : b.length ≠ 0 := fun e => hb (List.eq_nil_of_length_eq_zero e)
  unfold path_combine
  rw [if_neg (by simp)]
  simp only [combine_scan, if_neg hla, if_neg hlb, root_length_posix, if_neg hbr]
  by_cases hs : a.getD (a.length - 1) 0 = 47
  · rw [if_pos hs]
    rw [hs]
    by_cases hr : a.getD 0 0 = 47
    · simp [hr, is_dirsep_47, hla, hlb, combine_emit]
    · simp [hr, is_dirsep_47, hla, hlb, combine_emit]
  · rw [if_neg hs]
    rw [is_dirsep_ne _ false hs]
    by_cases hr : a.getD 0 0 = 47
    · simp [hr, hla, hlb, combine_emit, STD_PATH_DIRSEP]
    · simp [hr, hla, hlb, combine_emit, STD_PATH_DIRSEP]

theorem split_dir_len_step (g : Grammar) (path : Bytes) (v : Bool) (rl d : Nat) (h : rl < d + 1)
    (hs : pathL_is_dirsep g (path.getD d 0) v = true) :
    split_dir_len g path v rl (d + 1) = split_dir_len g path v rl d := by
  rw [split_dir_len, if_pos]
  rw [hs, Bool.and_true, decide_eq_true_eq]
  exact h

theorem split_dir_len_stop (g : Grammar) (path : Bytes) (v : Bool) (rl d : Nat)
    (hs : pathL_is_dirsep g (path.getD d 0) v = false) :
    split_dir_len g path v rl (d + 1) = d + 1 := by
  rw [split_dir_len, if_neg]
  rw [hs, Bool.and_false]
  exact Bool.false_ne_true

/-- C29: on the POSIX grammar, for every path `p` whose `parent(p) = a` is defined, `a` is a
proper prefix of `p` (a prefix that is strictly shorter); and if moreover `p` has no two
adjacent separators and `file_name(p) = b` is defined, then `combine(a, b) = p`. -/
theorem parent_file_name_combine (p a : Bytes) (ha : path_parent .posix p = some a) :
    (a = p.take a.length ∧ a.length < p.length) ∧
      (∀ (b : Bytes), no_adjacent_separators p → path_file_name .posix p = some b →
        path_combine .posix [a, b] = some p) := by
  by_cases hn : p.length = 0
  · have : p = [] := List.eq_nil_of_length_eq_zero hn
    subst this
    simp [path_parent, pathL_split_path] at ha
  obtain ⟨rl, hrl_def⟩ : ∃ rl, rl = (if p.getD 0 0 = 47 then 1 else 0) := ⟨_, rfl⟩
  obtain ⟨fo, hfo⟩ : ∃ fo, fo = split_file_offset .posix p false rl p.length := ⟨_, rfl⟩
  obtain ⟨dl, hdl⟩ : ∃ dl, dl = split_dir_len .posix p false rl fo := ⟨_, rfl⟩
  have hsp : pathL_split_path .posix p =
      ⟨rl, dl, fo, split_ext_offset p fo p.length, false⟩ := by
    unfold pathL_split_path
    rw [if_neg hn]
    simp only [root_length_posix]
    rw [← hrl_def, ← hfo, ← hdl]
  have hrl : rl ≤ p.length := by
    have := root_length_le .posix p
    rw [root_length_posix, ← hrl_def] at this
    exact this
  have hfo_ge : rl ≤ fo := by rw [hfo]; exact split_file_offset_ge _ _ _ _ _
  have hfo_le : fo ≤ p.length := by rw [hfo]; exact split_file_offset_le _ _ _ _ _ hrl
  have hdl_le : dl ≤ fo := by rw [hdl]; exact split_dir_len_le _ _ _ _ _
  have hsep : rl < fo → rl + 2 ≤ fo ∧ pathL_is_dirsep .posix (p.getD (fo - 1) 0) false = true := by
    rw [hfo]; exact split_file_offset_sep _ _ _ _ _
  unfold path_parent at ha
  rw [hsp] at ha
  simp only at ha
  -- the values returned
  have ha2 : (¬ (rl = p.length ∨ dl = 0)) ∧
      a = p.take dl := by
    by_cases hc : rl = p.length ∨ dl = 0
    · rw [if_pos hc] at ha
      cases ha
    · rw [if_neg hc] at ha
      refine ⟨hc, ?_⟩
      rw [lstring_zero_of_le p dl (by omega)] at ha
      exact (Option.some.inj ha).symm
  obtain ⟨hdef, hae⟩ := ha2
  have hdl_lt : dl < p.length := by
    by_cases hgt : rl < fo
    · obtain ⟨h2, hs⟩ := hsep hgt
      obtain ⟨k, hk⟩ : ∃ k, fo = k + 1 := ⟨fo - 1, by omega⟩
      rw [hk] at hs
      have e1 : k + 1 - 1 = k := by omega
      rw [e1] at hs
      have := split_dir_len_le .posix p false rl k
      rw [hdl, hk, split_dir_len_step .posix p false rl k (by omega) hs]
      omega
    · have hr : rl ≠ p.length := fun e => hdef (Or.inl e)
      omega
  have hal : a.length = dl := by
    rw [hae, List.length_take]
    omega
  refine ⟨⟨by rw [hal]; exact hae, by omega⟩, ?_⟩
  intro b hp hb
  have hadj := no_adjacent_separators_index p hp
  unfold path_file_name at hb
  rw [hsp] at hb
  simp only at hb
  have hb2 : fo ≠ p.length ∧ b = p.drop fo := by
    by_cases hc : fo = p.length
    · rw [if_pos hc] at hb
      cases hb
    · rw [if_neg hc] at hb
      refine ⟨hc, ?_⟩
      by_cases h0 : fo = 0
      · rw [if_pos h0] at hb
        rw [h0]
        exact (Option.some.inj hb).symm
      · rw [if_neg h0, lstring_drop p fo hfo_le] at hb
        exact (Option.some.inj hb).symm
  obtain ⟨hfn, hbe⟩ := hb2
  have hfolt : fo < p.length := by omega
  have hbne : b ≠ [] := by
    intro e
    have : b.length = 0 := by rw [e]; rfl
    rw [hbe, List.length_drop] at this
    omega
  have hane : a ≠ [] := by
    intro e
    have : a.length = 0 := by rw [e]; rfl
    omega
  have hb0 : b.getD 0 0 = p.getD fo 0 := by
    rw [hbe]
    simp [List.getD_eq_getElem?_getD]
  by_cases hgt : rl < fo
  · -- the file name follows a separator found by the scan
    obtain ⟨h2, hs⟩ := hsep hgt
    rw [dirsep_posix_iff] at hs
    have hprev : p.getD (fo - 2) 0 ≠ 47 := by
      intro e
      have := hadj (fo - 2) (by omega)
      apply this
      refine ⟨e, ?_⟩
      have e1 : fo - 2 + 1 = fo - 1 := by omega
      rw [e1]
      exact hs
    have hnext : p.getD fo 0 ≠ 47 := by
      intro e
      have := hadj (fo - 1) (by omega)
      apply this
      refine ⟨hs, ?_⟩
      have e1 : fo - 1 + 1 = fo := by omega
      rw [e1]
      exact e
    have hdl2 : dl = fo - 1 := by
      rw [hdl]
      obtain ⟨k, hk⟩ : ∃ k, fo = k + 2 := ⟨fo - 2, by omega⟩
      rw [hk] at hs hprev ⊢
      have e1 : k + 2 - 1 = k + 1 := by omega
      have e2 : k + 2 - 2 = k := by omega
      rw [e1] at hs
      rw [e2] at hprev
      rw [split_dir_len_step .posix p false rl (k + 1) (by omega) (by rw [hs]; exact is_dirsep_47 _),
        split_dir_len_stop .posix p false rl k (is_dirsep_ne _ _ hprev)]
      omega
    have halast : a.getD (a.length - 1) 0 ≠ 47 := by
      rw [hal, hae, hdl2]
      have e1 : fo - 1 - 1 = fo - 2 := by omega
      rw [e1, getD_take p (fo - 1) (fo - 2) (by omega)]
      exact hprev
    rw [combine_two_posix a b hane hbne (by rw [hb0]; exact hnext), if_neg halast, hae, hbe,
      hdl2]
    have := take_getD_drop p (fo - 1) (by omega)
    rw [hs] at this
    have e1 : fo - 1 + 1 = fo := by omega
    rw [e1] at this
    simpa using this
  · -- the file name starts right after the root
    have hfr : fo = rl := by omega
    have hdl2 : dl = fo := by
      rw [hdl]
      exact split_dir_len_of_le _ _ _ _ _ (by omega)
    have h0 : p.getD 0 0 = 47 := by
      by_contra hc
      rw [if_neg hc] at hrl_def
      apply hdef
      right
      omega
    rw [if_pos h0] at hrl_def
    have hfo1 : fo = 1 := by omega
    have hdl1 : dl = 1 := by omega
    subst hfo1
    subst hdl1
    have hnext : p.getD 1 0 ≠ 47 := by
      intro e
      exact hadj 0 (by omega) ⟨h0, e⟩
    have halast : a.getD (a.length - 1) 0 = 47 := by
      rw [hal, hae, getD_take p 1 0 (by omega)]
      exact h0
    rw [combine_two_posix a b hane hbne (by rw [hb0]; exact hnext), if_pos halast, hae, hbe]
    simp only [List.append_nil, List.take_append_drop]

/-- C29 (witness): the statement at `/usr/lib`, whose parent is `/usr` and file name `lib`. -/
theorem parent_file_name_combine_witness :
    (bytes "/usr" = (bytes "/usr/lib").take (bytes "/usr").length ∧
        (bytes "/usr").length < (bytes "/usr/lib").length) ∧
      path_combine .posix [bytes "/usr", bytes "lib"] = some (bytes "/usr/lib") :=
  ⟨(parent_file_name_combine (bytes "/usr/lib") (bytes "/usr") (by decide)).1,
    (parent_file_name_combine (bytes "/usr/lib") (bytes "/usr") (by decide)).2 (bytes "lib")
      ((no_adjacent_separators_iff _).mpr (by decide)) (by decide)⟩

/-! ## Helper lemmas: the stack resolution -/

theorem split_at_separators_free (p : Bytes) : ∀ piece ∈ split_at_separators p, 47 ∉ piece := by
  induction p with
  | nil => simp [split_at_separators]
  | cons c rest ih =>
    unfold split_at_separators
    by_cases hc : c = 47
    · rw [if_pos hc]
      intro piece hp
      rcases List.mem_cons.mp hp with e | e
      · rw [e]; simp
      · exact ih piece e
    · rw [if_neg hc]
      cases hs : split_at_separators rest with
      | nil =>
        intro piece hp
        simp only [List.mem_singleton] at hp
        rw [hp]
        simp only [List.mem_singleton]
        exact fun e => hc e.symm
      | cons first more =>
        rw [hs] at ih
        intro piece hp
        simp only at hp
        rcases List.mem_cons.mp hp with e | e
        · rw [e]
          intro hm
          rcases List.mem_cons.mp hm with e2 | e2
          · exact hc e2.symm
          · exact ih first (List.mem_cons_self _ _) e2
        · exact ih piece (List.mem_cons_of_mem _ e)

/-- The components of a path are non-empty and hold no separator. -/
theorem path_components_mem (p : Bytes) : ∀ c ∈ path_components p, c ≠ [] ∧ 47 ∉ c := by
  intro c hc
  unfold path_components at hc
  rw [List.mem_filter] at hc
  exact ⟨by simpa using hc.2, split_at_separators_free p c hc.1⟩

theorem resolve_components_kept (cs : List Bytes) :
    ∀ (st : List Bytes), (∀ c ∈ st, kept_component c) → (∀ c ∈ cs, c ≠ [] ∧ 47 ∉ c) →
      ∀ c ∈ resolve_components st cs, kept_component c := by
  induction cs with
  | nil => intro st hst _; exact hst
  | cons d ds ih =>
    intro st hst hcs
    have hds : ∀ c ∈ ds, c ≠ [] ∧ 47 ∉ c := fun c hc => hcs c (List.mem_cons_of_mem _ hc)
    have hd := hcs d (List.mem_cons_self _ _)
    unfold resolve_components
    split
    · exact ih st hst hds
    · rename_i h1
      split
      · exact ih st.dropLast (fun c hc => hst c (List.dropLast_subset st hc)) hds
      · rename_i h2
        refine ih (st ++ [d]) ?_ hds
        intro c hc
        rcases List.mem_append.mp hc with hc | hc
        · exact hst c hc
        · rw [List.mem_singleton.mp hc]
          exact ⟨hd.1, hd.2, h1, h2⟩

theorem getLast_after_separator (l r : Bytes) :
    (l ++ 47 :: r).getLast? = (47 :: r).getLast? := by
  induction l with
  | nil => rfl
  | cons a l ih =>
    cases l with
    | nil => rw [List.singleton_append, List.getLast?_cons_cons]
    | cons b l2 =>
      rw [List.cons_append, List.cons_append, List.getLast?_cons_cons, ← List.cons_append]
      exact ih

theorem getLast_component (comp : Bytes) (hne : comp ≠ []) (hs : 47 ∉ comp) :
    (47 :: comp).getLast? ≠ some 47 := by
  intro h
  have hm : (47 : Nat) ∈ comp := by
    cases comp with
    | nil => exact absurd rfl hne
    | cons a l =>
      rw [List.getLast?_cons_cons] at h
      exact List.mem_of_getLast?_eq_some h
  exact hs hm

/-- The exact invariant of the main loop on a rooted path: started at a separator (or at the
end) with `tmp` the rendered stack, the loop ends with the rendered stack resolution of the
components left, followed by one separator when the bytes left end with one. -/
theorem full_path_run_resolve (n : Nat) :
    ∀ (p : Bytes) (cs : List Bytes), p.length ≤ n → (p = [] ∨ ∃ q, p = 47 :: q) →
      (∀ c ∈ cs, 47 ∉ c) →
      full_path_run 1 0 p (render_components cs) =
        render_components (resolve_components cs (path_components p)) ++
          (if p.getLast? = some 47 then [47] else []) := by
  induction n with
  | zero =>
    intro p cs hlen _ _
    have hp : p = [] := List.eq_nil_of_length_eq_zero (by omega)
    subst hp
    simp [full_path_run_nil, path_components, split_at_separators, resolve_components]
  | succ n ih =>
    intro p cs hlen hb hns
    rcases hb with rfl | ⟨q, rfl⟩
    · simp [full_path_run_nil, path_components, split_at_separators, resolve_components]
    · obtain ⟨comp, rest, rfl, hs, hr⟩ := first_component_split q
      have hdrop : ∀ c ∈ cs.dropLast, 47 ∉ c :=
        fun c hc => hns c (List.dropLast_subset cs hc)
      simp only [List.length_cons, List.length_append] at hlen
      by_cases h0 : comp = []
      · subst h0
        rcases hr with rfl | ⟨r, rfl⟩
        · rw [List.nil_append, full_path_run_last_sep]
          simp [path_components, split_at_separators, resolve_components]
        · rw [List.nil_append, full_path_run_sep_sep, path_components_sep,
            List.getLast?_cons_cons]
          exact ih (47 :: r) cs (by simp only [List.length_cons] at hlen ⊢; omega)
            (Or.inr ⟨r, rfl⟩) hns
      · have hpc : path_components (47 :: (comp ++ rest)) = comp :: path_components rest := by
          rw [path_components_sep, path_components_comp comp rest h0 hs hr]
        have hlast : ((47 :: (comp ++ rest)).getLast? = some 47) ↔
            (rest.getLast? = some 47) := by
          rcases hr with rfl | ⟨r, rfl⟩
          · rw [List.append_nil]
            constructor
            · intro h; exact absurd h (getLast_component comp h0 hs)
            · intro h; simp at h
          · rw [← List.cons_append, getLast_after_separator]
        have hif : (if (47 :: (comp ++ rest)).getLast? = some 47 then [47] else ([] : Bytes)) =
            (if rest.getLast? = some 47 then [47] else []) := by
          by_cases hl : rest.getLast? = some 47
          · rw [if_pos hl, if_pos (hlast.mpr hl)]
          · rw [if_neg hl, if_neg (fun h => hl (hlast.mp h))]
        rw [hpc, hif]
        by_cases h1 : comp = [46]
        · subst h1
          rw [resolve_components, if_pos rfl]
          rcases hr with rfl | ⟨r, rfl⟩
          · rw [List.append_nil, full_path_run_dot_end]
            simp [path_components, split_at_separators, resolve_components]
          · rw [List.singleton_append, full_path_run_dot_sep]
            exact ih (47 :: r) cs (by simp only [List.length_cons] at hlen ⊢; omega)
              (Or.inr ⟨r, rfl⟩) hns
        · by_cases h2 : comp = [46, 46]
          · subst h2
            rw [resolve_components, if_neg (by decide), if_pos rfl]
            rcases hr with rfl | ⟨r, rfl⟩
            · rw [List.append_nil, full_path_run_dotdot_end, full_path_rewind_render cs hns]
              simp [path_components, split_at_separators, resolve_components]
            · have e : 47 :: ([46, 46] ++ 47 :: r) = 47 :: 46 :: 46 :: 47 :: r := rfl
              rw [e, full_path_run_dotdot_sep, full_path_rewind_render cs hns]
              exact ih (47 :: r) cs.dropLast
                (by simp only [List.length_cons] at hlen ⊢; omega) (Or.inr ⟨r, rfl⟩) hdrop
          · rw [resolve_components, if_neg h1, if_neg h2,
              full_path_run_sep_comp 1 0 comp rest _ h0 hs h1 h2 hr,
              full_path_run_copy 1 0 comp hs, List.append_assoc, List.singleton_append,
              ← render_components_append]
            refine ih rest (cs ++ [comp]) (by omega) hr ?_
            intro c hc
            rcases List.mem_append.mp hc with hc | hc
            · exact hns c hc
            · rw [List.mem_singleton.mp hc]
              exact hs

theorem render_eq_join (st : List Bytes) (h : st ≠ []) :
    render_components st = 47 :: join_components st := by
  induction st with
  | nil => exact absurd rfl h
  | cons c cs ih =>
    cases cs with
    | nil => simp [render_components, join_components]
    | cons d ds =>
      rw [render_components, ih (by simp), join_components]
      simp

/-- The loop never writes more bytes than it reads. -/
theorem full_path_loop_length (rl sk : Nat) (fuel : Nat) :
    ∀ (p tmp : Bytes), (full_path_loop rl sk fuel p tmp).length ≤ tmp.length + p.length := by
  induction fuel with
  | zero => intro p tmp; simp [full_path_loop]
  | succ fuel ih =>
    intro p tmp
    have hrw : (full_path_rewind tmp rl sk).length ≤ tmp.length := by
      unfold full_path_rewind
      simp only [List.length_take]
      omega
    unfold full_path_loop
    split
    · omega
    · rename_i hn
      simp only
      split
      · rename_i h1
        simp only [Bool.and_eq_true, decide_eq_true_eq] at h1
        split
        · have := ih (p.drop 1) tmp
          simp only [List.length_drop] at this
          omega
        · split
          · have := ih (p.drop 2) tmp
            simp only [List.length_drop] at this
            omega
          · split
            · have := ih (p.drop 3) (full_path_rewind tmp rl sk)
              simp only [List.length_drop] at this
              omega
            · have := ih (p.drop 1) (tmp ++ [p.getD 0 0])
              simp only [List.length_drop, List.length_append, List.length_singleton] at this
              omega
      · have := ih (p.drop 1) (tmp ++ [p.getD 0 0])
        simp only [List.length_drop, List.length_append, List.length_singleton] at this
        omega

/-- The result of `pathL_full_path` on a rooted path is never longer than the path. -/
theorem pathL_full_path_length (cwd : Option Bytes) (q out : Bytes)
    (h : pathL_full_path cwd (47 :: q) = some out) : out.length ≤ (47 :: q).length := by
  rw [pathL_full_path_rooted] at h
  have hl := full_path_loop_length 1 0 (47 :: q).length (47 :: q) []
  have hout := (Option.some.inj h).symm
  rw [hout]
  simp only [full_path_run, List.length_nil, Nat.zero_add] at hl ⊢
  split
  · rename_i h1
    have e0 : ([] : Bytes).length = 0 := rfl
    simp only [List.length_append, List.length_singleton, List.length_cons] at h1 ⊢
    omega
  · exact hl

/-- A rendered list of kept components, possibly followed by one separator, is a fixed point
of `pathL_full_path` (the bare root `/` included). -/
theorem pathL_full_path_render (cwd : Option Bytes) (cs : List Bytes)
    (h : ∀ c ∈ cs, kept_component c) (t : Bytes) (ht : t = [] ∨ t = [47])
    (hne : render_components cs ++ t ≠ []) :
    pathL_full_path cwd (render_components cs ++ t) = some (render_components cs ++ t) := by
  have hrun := full_path_run_render cs h t ht []
  rw [List.nil_append] at hrun
  have hnil : render_components [] = [] := rfl
  rw [hnil] at hrun
  rcases render_components_boundary cs t ht with e | ⟨r, e⟩
  · exact absurd e hne
  · rw [e] at hrun ⊢
    rw [pathL_full_path_rooted, hrun, if_neg (by simp)]

/-- C27: on the POSIX grammar, for every rooted path `p`, `full_path(p)` returns the stack
resolution `stack_full_path p`, that is `"/" ++ join(st, "/") ++ t` with `st` the stack left
by scanning the non-empty components of `p` (ignoring `.`, popping on `..`, pushing anything
else) and `t` equal to `"/"` when `st` is not empty and `p` ends with a separator, empty
otherwise; `full_path` of that result is the result again, and the result is never longer
than `p`. -/
theorem full_path_eq_stack_resolution (cwd : Option Bytes) (p : Bytes)
    (hr : pathL_is_rooted .posix p = true) :
    pathL_full_path cwd p = some (stack_full_path p) ∧
      pathL_full_path cwd (stack_full_path p) = some (stack_full_path p) ∧
      (stack_full_path p).length ≤ p.length := by
  obtain ⟨q, rfl⟩ := (rooted_posix_iff p).mp hr
  have hrun := full_path_run_resolve (47 :: q).length (47 :: q) [] (le_refl _)
    (Or.inr ⟨q, rfl⟩) (by simp)
  have hnil : render_components [] = [] := rfl
  rw [hnil] at hrun
  have hkept : ∀ c ∈ resolve_components [] (path_components (47 :: q)), kept_component c :=
    resolve_components_kept _ [] (by simp) (path_components_mem _)
  have hshape : stack_full_path (47 :: q) =
      render_components (resolve_components [] (path_components (47 :: q))) ++
        (if resolve_components [] (path_components (47 :: q)) = [] then [47]
          else if (47 :: q).getLast? = some 47 then [47] else []) := by
    unfold stack_full_path
    simp only
    by_cases hst : resolve_components [] (path_components (47 :: q)) = []
    · rw [hst]
      simp [render_components, join_components]
    · rw [render_eq_join _ hst, if_neg hst]
      by_cases hl : (47 :: q).getLast? = some 47
      · simp [hst, hl]
      · simp [hst, hl]
  have hfirst : pathL_full_path cwd (47 :: q) = some (stack_full_path (47 :: q)) := by
    rw [pathL_full_path_rooted, hrun, hshape]
    by_cases hst : resolve_components [] (path_components (47 :: q)) = []
    · rw [hst, if_pos rfl]
      by_cases hl : (47 :: q).getLast? = some 47
      · rw [if_pos hl]
        rfl
      · rw [if_neg hl]
        rfl
    · rw [if_neg hst, if_neg]
      obtain ⟨c, cs, hc⟩ := List.exists_cons_of_ne_nil hst
      rw [hc]
      simp [render_components]
  refine ⟨hfirst, ?_, pathL_full_path_length cwd q _ hfirst⟩
  rw [hshape]
  refine pathL_full_path_render cwd _ hkept _ ?_ ?_
  · by_cases hst : resolve_components [] (path_components (47 :: q)) = []
    · rw [if_pos hst]; right; rfl
    · rw [if_neg hst]
      by_cases hl : (47 :: q).getLast? = some 47
      · rw [if_pos hl]; right; rfl
      · rw [if_neg hl]; left; rfl
  · by_cases hst : resolve_components [] (path_components (47 :: q)) = []
    · rw [if_pos hst]
      simp
    · obtain ⟨c, cs, hc⟩ := List.exists_cons_of_ne_nil hst
      rw [hc]
      simp [render_components]

/-- C27 (witness): the statement at `/a/b/../c/./`, which resolves to `/a/c/`. -/
theorem full_path_eq_stack_resolution_witness :
    pathL_full_path none (bytes "/a/b/../c/./") = some (stack_full_path (bytes "/a/b/../c/./")) ∧
      pathL_full_path none (stack_full_path (bytes "/a/b/../c/./")) =
        some (stack_full_path (bytes "/a/b/../c/./")) ∧
      (stack_full_path (bytes "/a/b/../c/./")).length ≤ (bytes "/a/b/../c/./").length :=
  full_path_eq_stack_resolution none (bytes "/a/b/../c/./") (by decide)

end StdPath
